import Mathlib

set_option maxHeartbeats 1000000

/-!
Verification of the event-data normalization and metric-aggregation pipeline of
`streamlit_csv.py` (Kansas Member Health Record Dashboard).

Python strings are modelled as Lean `String`s.  The Python string methods
`str.strip()`, `str.lower()`, `str.upper()` are modelled over the ASCII
fragment (`pyStrip`, `pyLower`, `pyUpper`); the dashboard only ever feeds them
ASCII column names and event-type tokens.  Pandas cells are modelled by the
inductive type `Val`, with the pandas missing values (`pd.NA` / `NaN`) collapsed
into the single constructor `Val.null`, and IEEE infinities as `Val.posInf` /
`Val.negInf`; numeric cells are idealized as exact rationals.
-/

/-- Whitespace characters removed by Python `str.strip()` (ASCII fragment). -/
def isSpaceChar (c : Char) : Bool :=
  c = ' ' || c = '\t' || c = '\n' || c = '\r' || c = '\x0b' || c = '\x0c'

/-- ASCII lower-casing of one character, as Python `str.lower` acts on ASCII. -/
def lowerChar (c : Char) : Char :=
  if 65 ≤ c.toNat ∧ c.toNat ≤ 90 then Char.ofNat (c.toNat + 32) else c

/-- ASCII upper-casing of one character, as Python `str.upper` acts on ASCII. -/
def upperChar (c : Char) : Char :=
  if 97 ≤ c.toNat ∧ c.toNat ≤ 122 then Char.ofNat (c.toNat - 32) else c

/-- Strip leading and trailing whitespace from a character list. -/
def stripList (l : List Char) : List Char :=
  (l.dropWhile isSpaceChar).rdropWhile isSpaceChar

/-- Python `s.strip()`. -/
def pyStrip (s : String) : String := ⟨stripList s.data⟩

/-- Python `s.lower()`. -/
def pyLower (s : String) : String := ⟨s.data.map lowerChar⟩

/-- Python `s.upper()`. -/
def pyUpper (s : String) : String := ⟨s.data.map upperChar⟩

theorem char_toNat_ofNat_of_lt {n : Nat} (h : n < 55296) : (Char.ofNat n).toNat = n := by
  have hv : n.isValidChar := Or.inl h
  simp only [Char.ofNat, hv, dif_pos, Char.toNat, Char.ofNatAux]
  rfl

theorem toNat_lowerChar (c : Char) :
    (lowerChar c).toNat = if 65 ≤ c.toNat ∧ c.toNat ≤ 90 then c.toNat + 32 else c.toNat := by
  unfold lowerChar
  by_cases h : 65 ≤ c.toNat ∧ c.toNat ≤ 90
  · rw [if_pos h, if_pos h, char_toNat_ofNat_of_lt (by omega)]
  · rw [if_neg h, if_neg h]

theorem toNat_upperChar (c : Char) :
    (upperChar c).toNat = if 97 ≤ c.toNat ∧ c.toNat ≤ 122 then c.toNat - 32 else c.toNat := by
  unfold upperChar
  by_cases h : 97 ≤ c.toNat ∧ c.toNat ≤ 122
  · rw [if_pos h, if_pos h, char_toNat_ofNat_of_lt (by omega)]
  · rw [if_neg h, if_neg h]

theorem char_eq_of_toNat_eq {a b : Char} (h : a.toNat = b.toNat) : a = b := by
  cases a; cases b
  simp only [Char.toNat, UInt32.toNat] at h
  congr 1
  exact UInt32.eq_of_toBitVec_eq (BitVec.eq_of_toNat_eq h)

theorem lowerChar_eq_of_not_upper {c : Char} (h : ¬ (65 ≤ c.toNat ∧ c.toNat ≤ 90)) :
    lowerChar c = c := by
  unfold lowerChar; rw [if_neg h]

theorem upperChar_eq_of_not_lower {c : Char} (h : ¬ (97 ≤ c.toNat ∧ c.toNat ≤ 122)) :
    upperChar c = c := by
  unfold upperChar; rw [if_neg h]

theorem lowerChar_lowerChar (c : Char) : lowerChar (lowerChar c) = lowerChar c := by
  by_cases h : 65 ≤ c.toNat ∧ c.toNat ≤ 90
  · apply lowerChar_eq_of_not_upper
    rw [toNat_lowerChar, if_pos h]
    omega
  · rw [lowerChar_eq_of_not_upper h, lowerChar_eq_of_not_upper h]

theorem upperChar_lowerChar (c : Char) : upperChar (lowerChar c) = upperChar c := by
  by_cases h : 65 ≤ c.toNat ∧ c.toNat ≤ 90
  · apply char_eq_of_toNat_eq
    rw [toNat_upperChar, toNat_upperChar, toNat_lowerChar]
    rw [if_pos h]
    have h1 : 97 ≤ c.toNat + 32 ∧ c.toNat + 32 ≤ 122 := by omega
    rw [if_pos h1, if_neg (by omega)]
    omega
  · rw [lowerChar_eq_of_not_upper h]

theorem lowerChar_upperChar (c : Char) : lowerChar (upperChar c) = lowerChar c := by
  by_cases h : 97 ≤ c.toNat ∧ c.toNat ≤ 122
  · apply char_eq_of_toNat_eq
    rw [toNat_lowerChar, toNat_lowerChar, toNat_upperChar]
    rw [if_pos h]
    have h1 : 65 ≤ c.toNat - 32 ∧ c.toNat - 32 ≤ 90 := by omega
    rw [if_pos h1, if_neg (by omega)]
    omega
  · rw [upperChar_eq_of_not_lower h]

theorem isSpaceChar_iff_toNat (c : Char) :
    isSpaceChar c = true ↔
      c.toNat = 32 ∨ c.toNat = 9 ∨ c.toNat = 10 ∨ c.toNat = 13 ∨ c.toNat = 11 ∨ c.toNat = 12 := by
  constructor
  · intro h
    simp only [isSpaceChar, Bool.or_eq_true, decide_eq_true_eq] at h
    rcases h with ((((h | h) | h) | h) | h) | h <;> subst h <;> simp [Char.toNat]
  · intro h
    have : c = ' ' ∨ c = '\t' ∨ c = '\n' ∨ c = '\r' ∨ c = '\x0b' ∨ c = '\x0c' := by
      rcases h with h | h | h | h | h | h
      · exact Or.inl (char_eq_of_toNat_eq (by simpa [Char.toNat] using h))
      · exact Or.inr (Or.inl (char_eq_of_toNat_eq (by simpa [Char.toNat] using h)))
      · exact Or.inr (Or.inr (Or.inl (char_eq_of_toNat_eq (by simpa [Char.toNat] using h))))
      · exact Or.inr (Or.inr (Or.inr (Or.inl (char_eq_of_toNat_eq (by simpa [Char.toNat] using h)))))
      · exact Or.inr (Or.inr (Or.inr (Or.inr (Or.inl (char_eq_of_toNat_eq (by simpa [Char.toNat] using h))))))
      · exact Or.inr (Or.inr (Or.inr (Or.inr (Or.inr (char_eq_of_toNat_eq (by simpa [Char.toNat] using h))))))
    simp only [isSpaceChar, Bool.or_eq_true, decide_eq_true_eq]
    tauto

theorem isSpaceChar_lowerChar (c : Char) : isSpaceChar (lowerChar c) = isSpaceChar c := by
  by_cases h : 65 ≤ c.toNat ∧ c.toNat ≤ 90
  · have h1 : isSpaceChar (lowerChar c) = false := by
      by_contra hcon
      have := (isSpaceChar_iff_toNat (lowerChar c)).mp (by revert hcon; cases isSpaceChar (lowerChar c) <;> simp)
      rw [toNat_lowerChar, if_pos h] at this
      omega
    have h2 : isSpaceChar c = false := by
      by_contra hcon
      have := (isSpaceChar_iff_toNat c).mp (by revert hcon; cases isSpaceChar c <;> simp)
      omega
    rw [h1, h2]
  · rw [lowerChar_eq_of_not_upper h]

theorem isSpaceChar_upperChar (c : Char) : isSpaceChar (upperChar c) = isSpaceChar c := by
  by_cases h : 97 ≤ c.toNat ∧ c.toNat ≤ 122
  · have h1 : isSpaceChar (upperChar c) = false := by
      by_contra hcon
      have := (isSpaceChar_iff_toNat (upperChar c)).mp (by revert hcon; cases isSpaceChar (upperChar c) <;> simp)
      rw [toNat_upperChar, if_pos h] at this
      omega
    have h2 : isSpaceChar c = false := by
      by_contra hcon
      have := (isSpaceChar_iff_toNat c).mp (by revert hcon; cases isSpaceChar c <;> simp)
      omega
    rw [h1, h2]
  · rw [upperChar_eq_of_not_lower h]

theorem upperChar_upperChar (c : Char) : upperChar (upperChar c) = upperChar c := by
  by_cases h : 97 ≤ c.toNat ∧ c.toNat ≤ 122
  · apply upperChar_eq_of_not_lower
    rw [toNat_upperChar, if_pos h]
    omega
  · rw [upperChar_eq_of_not_lower h, upperChar_eq_of_not_lower h]

theorem str_ext {a b : String} (h : a.data = b.data) : a = b := by
  cases a; cases b; cases h; rfl

theorem dropWhile_eq_self_of_forall {p : Char → Bool} {l : List Char}
    (h : ∀ c ∈ l, p c = false) : List.dropWhile p l = l := by
  cases l with
  | nil => rfl
  | cons a t =>
      rw [List.dropWhile_cons, if_neg]
      simp [h a (List.mem_cons_self a t)]

theorem mem_stripList {c : Char} {l : List Char} (h : c ∈ stripList l) : c ∈ l := by
  unfold stripList at h
  have h1 : c ∈ l.dropWhile isSpaceChar :=
    (List.rdropWhile_prefix isSpaceChar _).sublist.mem h
  exact (List.dropWhile_suffix isSpaceChar).sublist.mem h1

theorem head?_of_pref {α : Type} {l1 l2 : List α} (h : l1 <+: l2) (hne : l1 ≠ []) :
    l2.head? = l1.head? := by
  obtain ⟨t, rfl⟩ := h
  cases l1 with
  | nil => exact absurd rfl hne
  | cons a s => rfl

theorem dropWhile_rdropWhile_dropWhile (p : Char → Bool) (l : List Char) :
    List.dropWhile p (List.rdropWhile p (List.dropWhile p l)) =
      List.rdropWhile p (List.dropWhile p l) := by
  rcases heq : List.rdropWhile p (List.dropWhile p l) with _ | ⟨a, t⟩
  · rfl
  · have hpfx := List.rdropWhile_prefix p (List.dropWhile p l)
    rw [heq] at hpfx
    have hne : List.dropWhile p l ≠ [] := by
      intro hnil; rw [hnil] at heq; simp at heq
    have h1 : (List.dropWhile p l).head? = some a := by
      rw [head?_of_pref hpfx (List.cons_ne_nil a t)]
      rfl
    have hhead := List.head_dropWhile_not p l hne
    have h2 : (List.dropWhile p l).head hne = a := by
      have := List.head?_eq_head hne
      rw [h1] at this
      exact (Option.some_inj.mp this).symm
    rw [h2] at hhead
    rw [List.dropWhile_cons, if_neg (by simpa using hhead)]

theorem stripList_idem (l : List Char) : stripList (stripList l) = stripList l := by
  unfold stripList
  rw [dropWhile_rdropWhile_dropWhile, List.rdropWhile_idempotent]

theorem dropWhile_congr_fn {α : Type} {p q : α → Bool} (l : List α)
    (h : ∀ c, p c = q c) : List.dropWhile p l = List.dropWhile q l := by
  induction l with
  | nil => rfl
  | cons a t ih => rw [List.dropWhile_cons, List.dropWhile_cons, h a, ih]

theorem rdropWhile_map (p : Char → Bool) (f : Char → Char) (l : List Char)
    (hf : ∀ c, p (f c) = p c) :
    List.rdropWhile p (l.map f) = (List.rdropWhile p l).map f := by
  unfold List.rdropWhile
  rw [← List.map_reverse, List.dropWhile_map, ← List.map_reverse]
  congr 2
  apply dropWhile_congr_fn
  intro c
  simp [Function.comp, hf c]

theorem stripList_map (f : Char → Char) (l : List Char)
    (hf : ∀ c, isSpaceChar (f c) = isSpaceChar c) :
    stripList (l.map f) = (stripList l).map f := by
  unfold stripList
  rw [List.dropWhile_map]
  have : List.dropWhile (isSpaceChar ∘ f) l = List.dropWhile isSpaceChar l := by
    apply dropWhile_congr_fn
    intro c
    simp [Function.comp, hf c]
  rw [this, rdropWhile_map _ _ _ hf]

theorem stripList_append (l m : List Char) (hl : List.dropWhile isSpaceChar l = l)
    (hm : ∀ c ∈ m, isSpaceChar c = false) (hne : m ≠ []) :
    stripList (l ++ m) = l ++ m := by
  rcases List.eq_nil_or_concat m with rfl | ⟨ms, x, rfl⟩
  · exact absurd rfl hne
  · unfold stripList
    have hd : List.dropWhile isSpaceChar (l ++ ms.concat x) = l ++ ms.concat x := by
      cases l with
      | nil =>
          rw [List.nil_append]
          exact dropWhile_eq_self_of_forall hm
      | cons a t =>
          have ha : isSpaceChar a = false := by
            rw [List.dropWhile_cons] at hl
            by_cases hsp : isSpaceChar a = true
            · rw [if_pos hsp] at hl
              have hsuf : List.dropWhile isSpaceChar t <:+ t := List.dropWhile_suffix isSpaceChar
              have hlen := hsuf.length_le
              have := congrArg List.length hl
              simp at this
              omega
            · simpa using hsp
          rw [List.cons_append, List.dropWhile_cons, if_neg (by simp [ha])]
    rw [hd]
    have : l ++ ms.concat x = (l ++ ms) ++ [x] := by
      rw [List.concat_eq_append, List.append_assoc]
    rw [this]
    rw [List.rdropWhile_concat_neg]
    simp
    exact hm x (by simp [List.concat_eq_append])

theorem dropWhile_eq_self_of_stripList {l : List Char} (h : stripList l = l) :
    List.dropWhile isSpaceChar l = l := by
  have hsur : List.dropWhile isSpaceChar l <:+ l := List.dropWhile_suffix isSpaceChar
  have hpre : stripList l <+: List.dropWhile isSpaceChar l := List.rdropWhile_prefix _ _
  rw [h] at hpre
  have h1 := hpre.length_le
  have h2 := hsur.length_le
  exact hsur.eq_of_length (by omega)

theorem pyStrip_pyStrip (s : String) : pyStrip (pyStrip s) = pyStrip s := by
  apply str_ext
  exact stripList_idem s.data

theorem pyLower_pyLower (s : String) : pyLower (pyLower s) = pyLower s := by
  apply str_ext
  show (s.data.map lowerChar).map lowerChar = s.data.map lowerChar
  rw [List.map_map]
  apply List.map_congr_left
  intro c _
  exact lowerChar_lowerChar c

theorem pyUpper_pyLower (s : String) : pyUpper (pyLower s) = pyUpper s := by
  apply str_ext
  show (s.data.map lowerChar).map upperChar = s.data.map upperChar
  rw [List.map_map]
  apply List.map_congr_left
  intro c _
  exact upperChar_lowerChar c

theorem pyLower_pyUpper (s : String) : pyLower (pyUpper s) = pyLower s := by
  apply str_ext
  show (s.data.map upperChar).map lowerChar = s.data.map lowerChar
  rw [List.map_map]
  apply List.map_congr_left
  intro c _
  exact lowerChar_upperChar c

theorem pyUpper_pyUpper (s : String) : pyUpper (pyUpper s) = pyUpper s := by
  apply str_ext
  show (s.data.map upperChar).map upperChar = s.data.map upperChar
  rw [List.map_map]
  apply List.map_congr_left
  intro c _
  exact upperChar_upperChar c

theorem pyStrip_pyLower (s : String) : pyStrip (pyLower s) = pyLower (pyStrip s) := by
  apply str_ext
  exact stripList_map lowerChar s.data isSpaceChar_lowerChar

theorem pyStrip_pyUpper (s : String) : pyStrip (pyUpper s) = pyUpper (pyStrip s) := by
  apply str_ext
  exact stripList_map upperChar s.data isSpaceChar_upperChar

/-- Decimal rendering of a natural number, as the Python f-string renders an
int.  The first argument is recursion fuel (any value above the digit count
works; `natToStr` passes `n + 1`). -/
def natToStrAux : Nat → Nat → List Char
  | 0, _ => []
  | fuel + 1, n =>
      if n < 10 then [Char.ofNat (48 + n)]
      else natToStrAux fuel (n / 10) ++ [Char.ofNat (48 + n % 10)]

def natToStr (n : Nat) : String := ⟨natToStrAux (n + 1) n⟩

theorem natToStrAux_digits (fuel : Nat) : ∀ (n : Nat), ∀ c ∈ natToStrAux fuel n,
    48 ≤ c.toNat ∧ c.toNat ≤ 57 := by
  induction fuel with
  | zero => intro n c h; simp [natToStrAux] at h
  | succ f ih =>
      intro n c h
      unfold natToStrAux at h
      by_cases hn : n < 10
      · rw [if_pos hn] at h
        simp at h
        subst h
        rw [char_toNat_ofNat_of_lt (by omega)]
        omega
      · rw [if_neg hn] at h
        rcases List.mem_append.mp h with h1 | h1
        · exact ih _ c h1
        · simp at h1
          subst h1
          have hm : n % 10 < 10 := Nat.mod_lt _ (by omega)
          rw [char_toNat_ofNat_of_lt (by omega)]
          omega

theorem natToStrAux_ne_nil (fuel n : Nat) : natToStrAux (fuel + 1) n ≠ [] := by
  unfold natToStrAux
  by_cases hn : n < 10
  · rw [if_pos hn]; simp
  · rw [if_neg hn]; simp

theorem map_eq_self_of_forall {α : Type} {f : α → α} {l : List α}
    (h : ∀ c ∈ l, f c = c) : l.map f = l := by
  induction l with
  | nil => rfl
  | cons a t ih =>
      rw [List.map_cons, h a (List.mem_cons_self a t), ih]
      intro c hc
      exact h c (List.mem_cons_of_mem a hc)

/-- Characters of the generated duplicate-suffix `"_" ++ digits`: underscore
or decimal digits, hence never whitespace and fixed by lower-casing. -/
theorem suffix_char_safe {m : Nat} {c : Char} (h : c ∈ '_' :: (natToStr m).data) :
    isSpaceChar c = false ∧ lowerChar c = c := by
  have hc : c.toNat = 95 ∨ (48 ≤ c.toNat ∧ c.toNat ≤ 57) := by
    rcases List.mem_cons.mp h with rfl | h1
    · left; rfl
    · right; exact natToStrAux_digits _ _ c h1
  constructor
  · by_contra hcon
    have := (isSpaceChar_iff_toNat c).mp (by revert hcon; cases isSpaceChar c <;> simp)
    rcases hc with h2 | h2 <;> omega
  · apply lowerChar_eq_of_not_upper
    rcases hc with h2 | h2 <;> omega

/-- A name that is strip-fixed stays strip-fixed after appending the
duplicate suffix. -/
theorem pyStrip_name_suffix (name : String) (m : Nat) (h : pyStrip name = name) :
    pyStrip (name ++ "_" ++ natToStr m) = name ++ "_" ++ natToStr m := by
  apply str_ext
  show stripList (name ++ "_" ++ natToStr m).data = (name ++ "_" ++ natToStr m).data
  rw [String.data_append, String.data_append]
  have hdata : ("_" : String).data ++ (natToStr m).data = '_' :: (natToStr m).data := rfl
  rw [List.append_assoc, hdata]
  apply stripList_append
  · apply dropWhile_eq_self_of_stripList
    exact congrArg String.data h
  · intro c hc
    exact (suffix_char_safe hc).1
  · simp

/-- A name that is lower-fixed stays lower-fixed after appending the
duplicate suffix. -/
theorem pyLower_name_suffix (name : String) (m : Nat) (h : pyLower name = name) :
    pyLower (name ++ "_" ++ natToStr m) = name ++ "_" ++ natToStr m := by
  apply str_ext
  show ((name ++ "_" ++ natToStr m).data).map lowerChar = (name ++ "_" ++ natToStr m).data
  rw [String.data_append, String.data_append]
  have hdata : ("_" : String).data ++ (natToStr m).data = '_' :: (natToStr m).data := rfl
  rw [List.append_assoc, hdata, List.map_append]
  have h1 : (name.data).map lowerChar = name.data := congrArg String.data h
  rw [h1]
  congr 1
  apply map_eq_self_of_forall
  intro c hc
  exact (suffix_char_safe hc).2

/-- The dict `seen` of make_unique / lower_unique, modelled as an association
list with the newest binding first (later bindings shadow older ones). -/
def lookupCnt : List (String × Nat) → String → Option Nat
  | [], _ => none
  | (k, v) :: rest, n => if k = n then some v else lookupCnt rest n

/-- Common body of `make_unique` and `lower_unique` (streamlit_csv.py lines
122-136); `f` is the per-name normalization applied before the duplicate
check: `pyStrip` for make_unique (`str(c).strip()`), `pyStrip` after
`pyLower` for lower_unique (`c.lower().strip()`).  A repeated name gets the
suffix `_k` where `k` is its occurrence count so far plus one. -/
def uniquifyAux (f : String → String) (seen : List (String × Nat)) : List String → List String
  | [] => []
  | c :: rest =>
      if lookupCnt seen (f c) = none then
        f c :: uniquifyAux f ((f c, 1) :: seen) rest
      else
        (f c ++ "_" ++ natToStr ((lookupCnt seen (f c)).getD 0 + 1)) ::
          uniquifyAux f ((f c, (lookupCnt seen (f c)).getD 0 + 1) :: seen) rest

/-- `make_unique` from load_data_from_csv. -/
def makeUnique (cols : List String) : List String :=
  uniquifyAux (fun c => pyStrip c) [] cols

/-- `lower_unique` from load_data_from_csv. -/
def lowerUnique (cols : List String) : List String :=
  uniquifyAux (fun c => pyStrip (pyLower c)) [] cols

/-- The column renaming step `df.columns = lower_unique(make_unique(df.columns))`. -/
def normalizeColumns (cols : List String) : List String :=
  lowerUnique (makeUnique cols)

/-- Number of occurrences of `k` in a processed prefix of names. -/
def countOcc : List String → String → Nat
  | [], _ => 0
  | d :: rest, k => (if d = k then 1 else 0) + countOcc rest k

theorem countOcc_append (l : List String) (x k : String) :
    countOcc (l ++ [x]) k = countOcc l k + (if x = k then 1 else 0) := by
  induction l with
  | nil => simp [countOcc]
  | cons d rest ih => simp [countOcc, ih]; omega

/-- History-based reformulation of `uniquifyAux`: the emitted name depends
only on how many times the normalized name occurred before. -/
def uniquifySpec (f : String → String) (done : List String) : List String → List String
  | [] => []
  | c :: rest =>
      (if countOcc done (f c) = 0 then f c
       else f c ++ "_" ++ natToStr (countOcc done (f c) + 1))
        :: uniquifySpec f (done ++ [f c]) rest

theorem uniquifyAux_cons_none (f : String → String) (seen : List (String × Nat))
    (c : String) (rest : List String) (h : lookupCnt seen (f c) = none) :
    uniquifyAux f seen (c :: rest) = f c :: uniquifyAux f ((f c, 1) :: seen) rest := by
  conv_lhs => unfold uniquifyAux
  rw [if_pos h]

theorem uniquifyAux_cons_some (f : String → String) (seen : List (String × Nat))
    (c : String) (rest : List String) (n : Nat) (h : lookupCnt seen (f c) = some n) :
    uniquifyAux f seen (c :: rest) =
      (f c ++ "_" ++ natToStr (n + 1)) :: uniquifyAux f ((f c, n + 1) :: seen) rest := by
  conv_lhs => unfold uniquifyAux
  rw [h]
  rw [if_neg (by simp)]
  simp

theorem lookupCnt_inv_step (seen : List (String × Nat)) (done : List String) (k0 : String)
    (hinv : ∀ k, lookupCnt seen k = if countOcc done k = 0 then none else some (countOcc done k)) :
    ∀ k, lookupCnt ((k0, countOcc done k0 + 1) :: seen) k =
      if countOcc (done ++ [k0]) k = 0 then none else some (countOcc (done ++ [k0]) k) := by
  intro k
  rw [countOcc_append]
  by_cases hk : k0 = k
  · subst hk
    rw [if_pos rfl, if_neg (by omega)]
    show (if k0 = k0 then some (countOcc done k0 + 1) else lookupCnt seen k0) =
      some (countOcc done k0 + 1)
    rw [if_pos rfl]
  · show (if k0 = k then some (countOcc done k0 + 1) else lookupCnt seen k) = _
    rw [if_neg hk, if_neg hk, hinv k]
    simp

theorem uniquifyAux_eq_spec (f : String → String) (l : List String) :
    ∀ (seen : List (String × Nat)) (done : List String),
      (∀ k, lookupCnt seen k = if countOcc done k = 0 then none else some (countOcc done k)) →
      uniquifyAux f seen l = uniquifySpec f done l := by
  induction l with
  | nil => intro seen done _; rfl
  | cons c rest ih =>
      intro seen done hinv
      have hc := hinv (f c)
      by_cases h0 : countOcc done (f c) = 0
      · rw [h0, if_pos rfl] at hc
        rw [uniquifyAux_cons_none f seen c rest hc]
        unfold uniquifySpec
        rw [if_pos h0]
        congr 1
        have hstep := lookupCnt_inv_step seen done (f c) hinv
        rw [h0] at hstep
        simp only [Nat.zero_add] at hstep
        exact ih _ _ hstep
      · rw [if_neg h0] at hc
        rw [uniquifyAux_cons_some f seen c rest _ hc]
        unfold uniquifySpec
        rw [if_neg h0]
        congr 1
        exact ih _ _ (lookupCnt_inv_step seen done (f c) hinv)

theorem uniquifyAux_eq_spec_nil (f : String → String) (l : List String) :
    uniquifyAux f [] l = uniquifySpec f [] l := by
  apply uniquifyAux_eq_spec
  intro k
  simp [lookupCnt, countOcc]

theorem uniquifySpec_length (f : String → String) (l : List String) :
    ∀ done, (uniquifySpec f done l).length = l.length := by
  induction l with
  | nil => intro done; rfl
  | cons c rest ih => intro done; unfold uniquifySpec; simp [ih]

theorem mem_uniquifySpec (f : String → String) (l : List String) :
    ∀ done, ∀ name ∈ uniquifySpec f done l,
      ∃ c ∈ l, name = f c ∨ ∃ n, name = f c ++ "_" ++ natToStr n := by
  induction l with
  | nil => intro done name h; simp [uniquifySpec] at h
  | cons c rest ih =>
      intro done name h
      unfold uniquifySpec at h
      rcases List.mem_cons.mp h with h1 | h1
      · refine ⟨c, List.mem_cons_self c rest, ?_⟩
        by_cases h0 : countOcc done (f c) = 0
        · rw [if_pos h0] at h1
          exact Or.inl h1
        · rw [if_neg h0] at h1
          exact Or.inr ⟨countOcc done (f c) + 1, h1⟩
      · obtain ⟨d, hd, hor⟩ := ih (done ++ [f c]) name h1
        exact ⟨d, List.mem_cons_of_mem c hd, hor⟩

theorem uniquifySpec_id (f : String → String) (l : List String) :
    ∀ done, (∀ c ∈ l, f c = c ∧ countOcc done c = 0) → l.Nodup →
      uniquifySpec f done l = l := by
  induction l with
  | nil => intro done _ _; rfl
  | cons c rest ih =>
      intro done hgood hnd
      obtain ⟨hfc, hcnt⟩ := hgood c (List.mem_cons_self c rest)
      unfold uniquifySpec
      rw [hfc, if_pos hcnt]
      congr 1
      apply ih
      · intro x hx
        obtain ⟨hfx, hcx⟩ := hgood x (List.mem_cons_of_mem c hx)
        refine ⟨hfx, ?_⟩
        rw [countOcc_append, hcx, if_neg ?_]
        intro hcx2
        subst hcx2
        exact (List.nodup_cons.mp hnd).1 hx
      · exact (List.nodup_cons.mp hnd).2

theorem normalizeColumns_length (cols : List String) :
    (normalizeColumns cols).length = cols.length := by
  unfold normalizeColumns lowerUnique makeUnique
  rw [uniquifyAux_eq_spec_nil, uniquifySpec_length, uniquifyAux_eq_spec_nil,
    uniquifySpec_length]

/-- Every name emitted by the composed renaming is lower-case and trimmed
(fixed by pyLower and by pyStrip). -/
theorem normalizeColumns_good (cols : List String) :
    ∀ name ∈ normalizeColumns cols, pyLower name = name ∧ pyStrip name = name := by
  intro name h
  unfold normalizeColumns lowerUnique at h
  rw [uniquifyAux_eq_spec_nil] at h
  obtain ⟨c, _, hor⟩ := mem_uniquifySpec _ _ [] name h
  have hglower : pyLower (pyStrip (pyLower c)) = pyStrip (pyLower c) := by
    rw [pyStrip_pyLower, pyLower_pyLower]
  have hgstrip : pyStrip (pyStrip (pyLower c)) = pyStrip (pyLower c) := pyStrip_pyStrip _
  rcases hor with rfl | ⟨n, rfl⟩
  · exact ⟨hglower, hgstrip⟩
  · exact ⟨pyLower_name_suffix _ n hglower, pyStrip_name_suffix _ n hgstrip⟩

/-- C2: for every list of raw column names, the composed renaming
lower_unique(make_unique(cols)) preserves the number of columns, every output
name is lower-case and trimmed, and the emitted names are characterized
occurrence-wise by uniquifySpec: the first occurrence of a (normalized) name
is emitted bare, and the k-th repeat is emitted with suffix _k, i.e. _2, _3,
... in order of appearance.  (The distinctness and the _1, _2, ... numbering
asserted by the claim do not hold; see the counterexample.) -/
theorem c2_column_normalization (cols : List String) :
    (normalizeColumns cols).length = cols.length ∧
    (∀ name ∈ normalizeColumns cols, pyLower name = name ∧ pyStrip name = name) ∧
    makeUnique cols = uniquifySpec (fun c => pyStrip c) [] cols ∧
    normalizeColumns cols =
      uniquifySpec (fun c => pyStrip (pyLower c)) [] (makeUnique cols) := by
  refine ⟨normalizeColumns_length cols, normalizeColumns_good cols, ?_, ?_⟩
  · unfold makeUnique
    exact uniquifyAux_eq_spec_nil _ _
  · unfold normalizeColumns lowerUnique
    exact uniquifyAux_eq_spec_nil _ _

/-- C2 counterexample: a second occurrence receives the suffix _2 (not _1),
and a raw name that collides with a generated suffixed name makes the output
non-distinct: [A, a, a_2] normalizes to [a, a_2, a_2]. -/
theorem c2_counterexample :
    normalizeColumns ["a", "a"] = ["a", "a_2"] ∧
    normalizeColumns ["A", "a", "a_2"] = ["a", "a_2", "a_2"] ∧
    ¬ (normalizeColumns ["A", "a", "a_2"]).Nodup := by
  refine ⟨by decide, by decide, by decide⟩

/-- C2 witness: the amended theorem applied at a concrete input. -/
theorem c2_witness : pyLower "a_2" = "a_2" ∧ pyStrip "a_2" = "a_2" :=
  (c2_column_normalization ["a", "a"]).2.1 "a_2" (by decide)

/-- Alias table of load_data_from_csv lines 172-175: variants mapped onto the
canonical event-type vocabulary. -/
def eventTypeMapping : List (String × String) :=
  [("IN_BOUND_CROSSOVER", "crossover"), ("CARE_PROGRAM_CLICKED", "link_click")]

def lookupAlias : List (String × String) → String → Option String
  | [], _ => none
  | (k, v) :: rest, n => if k = n then some v else lookupAlias rest n

/-- Normalization of one event-type string (lines 176-178): strip, then look
the upper-cased value up in the alias table, falling back to the lower-cased
stripped value (the fillna argument is the stripped value lower-cased). -/
def normalizeEventTypeStr (s : String) : String :=
  match lookupAlias eventTypeMapping (pyUpper (pyStrip s)) with
  | some c => c
  | none => pyLower (pyStrip s)

/-- Cell-level event-type normalization: a missing value (pd.NA) propagates
through str.strip, str.upper, Series.map and fillna (whose fill value is
itself NA at that position), so it stays missing. -/
def normalizeEventType : Option String → Option String
  | none => none
  | some s => some (normalizeEventTypeStr s)

theorem alias_values {k v : String} (h : lookupAlias eventTypeMapping k = some v) :
    v = "crossover" ∨ v = "link_click" := by
  simp only [eventTypeMapping, lookupAlias] at h
  split_ifs at h
  · exact Or.inl (Option.some_inj.mp h).symm
  · exact Or.inr (Option.some_inj.mp h).symm

theorem normalizeEventTypeStr_strip (s : String) :
    normalizeEventTypeStr (pyStrip s) = normalizeEventTypeStr s := by
  unfold normalizeEventTypeStr
  rw [pyStrip_pyStrip]

theorem normalizeEventTypeStr_upper (s : String) :
    normalizeEventTypeStr (pyUpper s) = normalizeEventTypeStr s := by
  unfold normalizeEventTypeStr
  rw [pyStrip_pyUpper, pyUpper_pyUpper, pyLower_pyUpper]

theorem normalizeEventTypeStr_lower (s : String) :
    normalizeEventTypeStr (pyLower s) = normalizeEventTypeStr s := by
  unfold normalizeEventTypeStr
  rw [pyStrip_pyLower, pyUpper_pyLower, pyLower_pyLower]

theorem normalizeEventTypeStr_idem (s : String) :
    normalizeEventTypeStr (normalizeEventTypeStr s) = normalizeEventTypeStr s := by
  rcases heq : lookupAlias eventTypeMapping (pyUpper (pyStrip s)) with _ | v
  · have hmiss : normalizeEventTypeStr s = pyLower (pyStrip s) := by
      unfold normalizeEventTypeStr
      rw [heq]
    rw [hmiss]
    unfold normalizeEventTypeStr
    rw [pyStrip_pyLower, pyStrip_pyStrip, pyUpper_pyLower, heq, pyLower_pyLower]
  · have hhit : normalizeEventTypeStr s = v := by
      unfold normalizeEventTypeStr
      rw [heq]
    rw [hhit]
    rcases alias_values heq with rfl | rfl
    · decide
    · decide

/-- C1 (amended): event-type normalization is total and non-null on every
string value, invariant under surrounding whitespace and input casing, acts
as lower-cased-trimmed passthrough outside the alias table, maps the
documented aliases to their canonical targets, maps the empty string to the
empty string — but a missing (null) input stays null, not the empty string. -/
theorem c1_event_type_normalization :
    (∀ s, normalizeEventType (some s) = some (normalizeEventTypeStr s)) ∧
    (∀ s, normalizeEventTypeStr (pyStrip s) = normalizeEventTypeStr s ∧
          normalizeEventTypeStr (pyUpper s) = normalizeEventTypeStr s ∧
          normalizeEventTypeStr (pyLower s) = normalizeEventTypeStr s) ∧
    (∀ s, lookupAlias eventTypeMapping (pyUpper (pyStrip s)) = none →
          normalizeEventTypeStr s = pyLower (pyStrip s)) ∧
    normalizeEventTypeStr "in_bound_crossover" = "crossover" ∧
    normalizeEventTypeStr "IN_BOUND_CROSSOVER" = "crossover" ∧
    normalizeEventTypeStr " In_Bound_Crossover " = "crossover" ∧
    normalizeEventTypeStr "CARE_PROGRAM_CLICKED" = "link_click" ∧
    normalizeEventTypeStr "Page_View" = "page_view" ∧
    normalizeEventTypeStr "" = "" ∧
    normalizeEventType none = none := by
  refine ⟨fun s => rfl, ?_, ?_, by decide, by decide, by decide, by decide, by decide,
    by decide, rfl⟩
  · intro s
    exact ⟨normalizeEventTypeStr_strip s, normalizeEventTypeStr_upper s,
      normalizeEventTypeStr_lower s⟩
  · intro s hs
    unfold normalizeEventTypeStr
    rw [hs]

/-- C1 witness: the passthrough implication discharged at a concrete input. -/
theorem c1_witness : normalizeEventTypeStr "Hello" = pyLower (pyStrip "Hello") :=
  c1_event_type_normalization.2.2.1 "Hello" (by decide)

/-- C1 counterexample: a missing event_type value stays null after
normalization (NA propagates through strip, upper, map, and the fillna fill
value is itself NA at that position), contradicting the claim that an empty
or missing input maps to an empty string and never to null. -/
theorem c1_counterexample :
    normalizeEventType none = none ∧ normalizeEventType none ≠ some "" :=
  ⟨rfl, by decide⟩

/-- A pandas cell.  pd.NA and float NaN are both modelled as `null` (pandas
treats NaN as missing); IEEE infinities are explicit values; numeric cells are
idealized as exact rationals; dates are an integer encoding yyyymmdd. -/
inductive Val
  | str (s : String)
  | num (q : ℚ)
  | date (d : Int)
  | null
  | posInf
  | negInf
deriving DecidableEq, Repr

/-- Element-wise pandas/numpy multiplication on the value shapes the dashboard
produces.  NaN is identified with null; non-numeric operands are idealized to
null (that case is never exercised by the modelled flows). -/
def pandasMul : Val → Val → Val
  | Val.num x, Val.num y => Val.num (x * y)
  | Val.num x, Val.posInf =>
      if 0 < x.num then Val.posInf else if x.num < 0 then Val.negInf else Val.null
  | Val.num x, Val.negInf =>
      if 0 < x.num then Val.negInf else if x.num < 0 then Val.posInf else Val.null
  | Val.posInf, Val.num y =>
      if 0 < y.num then Val.posInf else if y.num < 0 then Val.negInf else Val.null
  | Val.negInf, Val.num y =>
      if 0 < y.num then Val.negInf else if y.num < 0 then Val.posInf else Val.null
  | Val.posInf, Val.posInf => Val.posInf
  | Val.posInf, Val.negInf => Val.negInf
  | Val.negInf, Val.posInf => Val.negInf
  | Val.negInf, Val.negInf => Val.posInf
  | _, _ => Val.null

/-- Element-wise pandas/numpy true division: x / 0 is NaN for x = 0 and a
signed infinity otherwise (np.errstate only silences the warning). -/
def pandasDiv : Val → Val → Val
  | Val.num x, Val.num y =>
      if y.num = 0 then
        (if x.num = 0 then Val.null else if 0 < x.num then Val.posInf else Val.negInf)
      else Val.num (x / y)
  | Val.num _, Val.posInf => Val.num 0
  | Val.num _, Val.negInf => Val.num 0
  | Val.posInf, Val.num y => if 0 ≤ y.num then Val.posInf else Val.negInf
  | Val.negInf, Val.num y => if 0 ≤ y.num then Val.negInf else Val.posInf
  | _, _ => Val.null

/-- Series.fillna(0): replaces missing values (NaN / NA) only — infinities
pass through untouched. -/
def fillnaZero : Val → Val
  | Val.null => Val.num 0
  | v => v

theorem rat_num_ne_zero {q : ℚ} (h : q ≠ 0) : ¬ q.num = 0 := by
  simpa [Rat.num_eq_zero] using h

theorem pandasDiv_num_num {x y : ℚ} (h : y ≠ 0) :
    pandasDiv (Val.num x) (Val.num y) = Val.num (x / y) := by
  show (if y.num = 0 then
          (if x.num = 0 then Val.null else if 0 < x.num then Val.posInf else Val.negInf)
        else Val.num (x / y)) = Val.num (x / y)
  rw [if_neg (rat_num_ne_zero h)]

theorem pandasDiv_pos_zero {x : ℚ} (h : 0 < x) :
    pandasDiv (Val.num x) (Val.num 0) = Val.posInf := by
  have hx : 0 < x.num := Rat.num_pos.mpr h
  show (if (0 : ℚ).num = 0 then
          (if x.num = 0 then Val.null else if 0 < x.num then Val.posInf else Val.negInf)
        else Val.num (x / 0)) = Val.posInf
  rw [if_pos Rat.num_zero, if_neg (by omega), if_pos hx]

theorem pandasDiv_zero_zero : pandasDiv (Val.num 0) (Val.num 0) = Val.null := by
  show (if (0 : ℚ).num = 0 then
          (if (0 : ℚ).num = 0 then Val.null
           else if 0 < (0 : ℚ).num then Val.posInf else Val.negInf)
        else Val.num (0 / 0)) = Val.null
  rw [if_pos Rat.num_zero, if_pos Rat.num_zero]

theorem pandasMul_posInf_num {y : ℚ} (h : 0 < y) :
    pandasMul Val.posInf (Val.num y) = Val.posInf := by
  have hy : 0 < y.num := Rat.num_pos.mpr h
  show (if 0 < y.num then Val.posInf else if y.num < 0 then Val.negInf else Val.null) =
    Val.posInf
  rw [if_pos hy]

/-- conversion_pct (line 267): the scalar Click Conversion KPI, guarded by
crossover > 0. -/
def conversion_pct (link_click crossover : Nat) : ℚ :=
  if 0 < crossover then (link_click : ℚ) / (crossover : ℚ) * 100 else 0

/-- One entry of conversion_rate (line 355): Link Clicks / Website Crossovers
* 100 with fillna(0). -/
def conversionRateEntry (clicks crossovers : Val) : Val :=
  fillnaZero (pandasMul (pandasDiv clicks crossovers) (Val.num 100))

/-- conversion_rate (line 355), element-wise over the rows of the merged
monthly table (Link Clicks paired with Website Crossovers). -/
def conversion_rate (rows : List (Val × Val)) : List Val :=
  rows.map (fun p => conversionRateEntry p.1 p.2)

theorem conversionRateEntry_num {clicks cross : ℚ} (h : cross ≠ 0) :
    conversionRateEntry (Val.num clicks) (Val.num cross) =
      Val.num (clicks / cross * 100) := by
  unfold conversionRateEntry
  rw [pandasDiv_num_num h]
  rfl

theorem conversionRateEntry_zero_zero :
    conversionRateEntry (Val.num 0) (Val.num 0) = Val.num 0 := by
  unfold conversionRateEntry
  rw [pandasDiv_zero_zero]
  rfl

theorem conversionRateEntry_pos_zero {clicks : ℚ} (h : 0 < clicks) :
    conversionRateEntry (Val.num clicks) (Val.num 0) = Val.posInf := by
  unfold conversionRateEntry
  rw [pandasDiv_pos_zero h, pandasMul_posInf_num (by norm_num)]
  rfl

/-- BMI of one row (lines 157-159): weight / height**2, evaluated under
np.errstate (which only silences warnings). -/
def bmiVal (weight height : Val) : Val :=
  pandasDiv weight (pandasMul height height)

/-- C3 (amended): the scalar conversion_pct equals link_click/crossover*100
and is 0 whenever crossover = 0 (for every link_click value); a per-month
conversion_rate entry equals clicks/crossovers*100 for nonzero crossovers and
is 0 for a 0/0 month (NaN filled by fillna(0)), but a month with positive
clicks and zero crossovers yields +infinity, which fillna(0) does not
replace, so an infinity is visible to the caller on such months. -/
theorem c3_conversion_rate :
    (∀ link cross : Nat, cross = 0 → conversion_pct link cross = 0) ∧
    (∀ link cross : Nat, 0 < cross →
        conversion_pct link cross = (link : ℚ) / (cross : ℚ) * 100) ∧
    (∀ clicks cross : ℚ, cross ≠ 0 →
        conversionRateEntry (Val.num clicks) (Val.num cross) =
          Val.num (clicks / cross * 100)) ∧
    conversionRateEntry (Val.num 0) (Val.num 0) = Val.num 0 ∧
    (∀ clicks : ℚ, 0 < clicks →
        conversionRateEntry (Val.num clicks) (Val.num 0) = Val.posInf) ∧
    (∀ rows, conversion_rate rows = rows.map (fun p => conversionRateEntry p.1 p.2)) := by
  refine ⟨?_, ?_, fun clicks cross h => conversionRateEntry_num h,
    conversionRateEntry_zero_zero, fun clicks h => conversionRateEntry_pos_zero h,
    fun rows => rfl⟩
  · intro link cross h
    subst h
    unfold conversion_pct
    rw [if_neg (by omega)]
  · intro link cross h
    unfold conversion_pct
    rw [if_pos h]

/-- C3 witness: the conversion formulas discharged at concrete inputs. -/
theorem c3_witness :
    conversion_pct 3 0 = 0 ∧ conversion_pct 3 4 = 75 ∧
    conversionRateEntry (Val.num 3) (Val.num 4) = Val.num 75 := by
  refine ⟨c3_conversion_rate.1 3 0 rfl, ?_, ?_⟩
  · rw [c3_conversion_rate.2.1 3 4 (by norm_num)]
    norm_num
  · rw [c3_conversion_rate.2.2.1 3 4 (by norm_num)]
    have h : (3 : ℚ) / 4 * 100 = 75 := by norm_num
    rw [h]

/-- C3 counterexample: a month with 5 link clicks and 0 crossovers produces
the conversion value +infinity, not 0 — fillna(0) replaces only the NaN of a
0/0 month, never an infinity. -/
theorem c3_counterexample :
    conversionRateEntry (Val.num 5) (Val.num 0) = Val.posInf ∧
    Val.posInf ≠ Val.num 0 :=
  ⟨conversionRateEntry_pos_zero (by norm_num), by simp⟩

/-- A pandas DataFrame: the index length (row count) plus named columns in
order.  Column assignment keeps the index, so nrows is stable under setCol. -/
structure Table where
  nrows : Nat
  cols : List (String × List Val)
deriving DecidableEq, Repr

def Table.colNames (t : Table) : List String := t.cols.map Prod.fst

def Table.hasCol (t : Table) (n : String) : Bool := t.cols.any (fun c => c.1 = n)

def Table.getCol (t : Table) (n : String) : List Val :=
  match t.cols.find? (fun c => c.1 = n) with
  | some c => c.2
  | none => []

def setColAux (n : String) (vs : List Val) :
    List (String × List Val) → List (String × List Val)
  | [] => [(n, vs)]
  | c :: rest => if c.1 = n then (n, vs) :: rest else c :: setColAux n vs rest

/-- df[n] = vs: replace the column named n in place, or append a new one. -/
def Table.setCol (t : Table) (n : String) (vs : List Val) : Table :=
  ⟨t.nrows, setColAux n vs t.cols⟩

/-- Cell access with the null default (only meaningful below the row count). -/
def Table.cell (t : Table) (n : String) (i : Nat) : Val := (t.getCol n).getD i Val.null

/-- Well-formedness: every column holds exactly nrows cells. -/
def WF (t : Table) : Prop := ∀ c ∈ t.cols, c.2.length = t.nrows

/-- df.empty: true when either axis has length zero. -/
def Table.isEmptyT (t : Table) : Bool := t.nrows == 0 || t.cols.isEmpty

theorem nrows_setCol (t : Table) (n : String) (vs : List Val) :
    (t.setCol n vs).nrows = t.nrows := rfl

theorem getCol_setCol_self (t : Table) (n : String) (vs : List Val) :
    (t.setCol n vs).getCol n = vs := by
  rcases t with ⟨nr, cols⟩
  show Table.getCol ⟨nr, setColAux n vs cols⟩ n = vs
  unfold Table.getCol
  induction cols with
  | nil => simp [setColAux, List.find?]
  | cons c rest ih =>
      by_cases hc : c.1 = n
      · simp [setColAux, if_pos hc, List.find?]
      · simp only [setColAux, if_neg hc]
        rw [List.find?_cons_of_neg _ (by simp [hc])]
        exact ih

theorem getCol_setCol_ne (t : Table) (n m : String) (vs : List Val) (h : m ≠ n) :
    (t.setCol n vs).getCol m = t.getCol m := by
  have hnm : ¬ n = m := fun hh => h hh.symm
  rcases t with ⟨nr, cols⟩
  show Table.getCol ⟨nr, setColAux n vs cols⟩ m = Table.getCol ⟨nr, cols⟩ m
  unfold Table.getCol
  induction cols with
  | nil =>
      show (match List.find? (fun c => decide (c.1 = m)) [(n, vs)] with
            | some c => c.2
            | none => []) = _
      rw [List.find?_cons_of_neg _ (by simp [hnm])]
  | cons c rest ih =>
      by_cases hc : c.1 = n
      · have hcm : ¬ c.1 = m := by rw [hc]; exact hnm
        simp only [setColAux, if_pos hc]
        rw [List.find?_cons_of_neg _ (by simp [hnm]),
          List.find?_cons_of_neg _ (by simp [hcm])]
      · simp only [setColAux, if_neg hc]
        by_cases hm : c.1 = m
        · rw [List.find?_cons_of_pos _ (by simp [hm]), List.find?_cons_of_pos _ (by simp [hm])]
        · rw [List.find?_cons_of_neg _ (by simp [hm]), List.find?_cons_of_neg _ (by simp [hm])]
          exact ih

theorem hasCol_setCol_self (t : Table) (n : String) (vs : List Val) :
    (t.setCol n vs).hasCol n = true := by
  rcases t with ⟨nr, cols⟩
  show Table.hasCol ⟨nr, setColAux n vs cols⟩ n = true
  unfold Table.hasCol
  induction cols with
  | nil => simp [setColAux]
  | cons c rest ih =>
      by_cases hc : c.1 = n
      · simp [setColAux, if_pos hc]
      · simp only [setColAux, if_neg hc, List.any_cons]
        rw [ih]
        simp

theorem hasCol_setCol_ne (t : Table) (n m : String) (vs : List Val) (h : m ≠ n) :
    (t.setCol n vs).hasCol m = t.hasCol m := by
  have hnm : ¬ n = m := fun hh => h hh.symm
  rcases t with ⟨nr, cols⟩
  show Table.hasCol ⟨nr, setColAux n vs cols⟩ m = Table.hasCol ⟨nr, cols⟩ m
  unfold Table.hasCol
  induction cols with
  | nil => simp [setColAux, hnm]
  | cons c rest ih =>
      by_cases hc : c.1 = n
      · have hcm : ¬ c.1 = m := by rw [hc]; exact hnm
        simp only [setColAux, if_pos hc, List.any_cons]
        simp [hnm, hcm]
      · simp only [setColAux, if_neg hc, List.any_cons]
        rw [ih]

theorem setCol_self (t : Table) (n : String) (vs : List Val)
    (h1 : t.hasCol n = true) (h2 : t.getCol n = vs) : t.setCol n vs = t := by
  rcases t with ⟨nr, cols⟩
  show (⟨nr, setColAux n vs cols⟩ : Table) = ⟨nr, cols⟩
  unfold Table.hasCol at h1
  unfold Table.getCol at h2
  congr 1
  induction cols with
  | nil => simp at h1
  | cons c rest ih =>
      by_cases hc : c.1 = n
      · rw [List.find?_cons_of_pos _ (by simp [hc])] at h2
        simp only [setColAux, if_pos hc]
        rcases c with ⟨cn, cv⟩
        simp only at hc h2
        rw [hc, h2]
      · rw [List.find?_cons_of_neg _ (by simp [hc])] at h2
        simp only [List.any_cons] at h1
        have h1r : rest.any (fun c => decide (c.1 = n)) = true := by
          rcases (Bool.or_eq_true _ _).mp h1 with hl | hr
          · exact absurd (by simpa using hl) hc
          · exact hr
        simp only [setColAux, if_neg hc]
        rw [ih h1r h2]

theorem mem_setColAux {n : String} {vs : List Val} {cols : List (String × List Val)}
    {c : String × List Val} (h : c ∈ setColAux n vs cols) : c ∈ cols ∨ c = (n, vs) := by
  induction cols with
  | nil => simp [setColAux] at h; exact Or.inr h
  | cons d rest ih =>
      by_cases hd : d.1 = n
      · rw [setColAux, if_pos hd] at h
        rcases List.mem_cons.mp h with rfl | h1
        · exact Or.inr rfl
        · exact Or.inl (List.mem_cons_of_mem d h1)
      · rw [setColAux, if_neg hd] at h
        rcases List.mem_cons.mp h with rfl | h1
        · exact Or.inl (List.mem_cons_self _ _)
        · rcases ih h1 with h2 | h2
          · exact Or.inl (List.mem_cons_of_mem d h2)
          · exact Or.inr h2

theorem WF_setCol {t : Table} {n : String} {vs : List Val} (hwf : WF t)
    (hlen : vs.length = t.nrows) : WF (t.setCol n vs) := by
  intro c hc
  rcases mem_setColAux hc with h | rfl
  · exact hwf c h
  · exact hlen

theorem mem_colNames_setCol {t : Table} {n m : String} {vs : List Val}
    (h : m ∈ (t.setCol n vs).colNames) : m ∈ t.colNames ∨ m = n := by
  unfold Table.colNames at h ⊢
  rcases List.mem_map.mp h with ⟨c, hc, rfl⟩
  rcases mem_setColAux hc with h1 | rfl
  · exact Or.inl (List.mem_map_of_mem Prod.fst h1)
  · exact Or.inr rfl

theorem getCol_length {t : Table} {n : String} (hwf : WF t) (h : t.hasCol n = true) :
    (t.getCol n).length = t.nrows := by
  unfold Table.hasCol at h
  unfold Table.getCol
  rcases List.any_eq_true.mp h with ⟨c, hc, hpc⟩
  have hex : (t.cols.find? (fun c => c.1 = n)).isSome := by
    rw [List.find?_isSome]
    exact ⟨c, hc, hpc⟩
  rcases hfind : t.cols.find? (fun c => decide (c.1 = n)) with _ | d
  · rw [hfind] at hex; simp at hex
  · rw [hfind]
    exact hwf d (List.mem_of_find?_eq_some hfind)

/-- Row-wise first non-null value (df[found].bfill(axis=1).iloc[:, 0]). -/
def firstNonNull (l : List Val) : Val :=
  match l.find? (fun v => v ≠ Val.null) with
  | some v => v
  | none => Val.null

/-- Row-wise coalesced values over the candidate columns present in t. -/
def coalVals (t : Table) (candidates : List String) : List Val :=
  (List.range t.nrows).map (fun i =>
    firstNonNull ((candidates.filter (fun c => t.hasCol c)).map (fun c => t.cell c i)))

/-- The coalesce step for one target field (lines 140-150): collect the
candidate alias columns present, back-fill row-wise across them when there are
several, copy the single one when there is exactly one, and synthesize an
all-NA column when none exists. -/
def coalesceCol (t : Table) (newCol : String) (candidates : List String) : Table :=
  match candidates.filter (fun c => t.hasCol c) with
  | [] => if t.hasCol newCol then t else t.setCol newCol (List.replicate t.nrows Val.null)
  | [c] => t.setCol newCol (t.getCol c)
  | _ => t.setCol newCol (coalVals t candidates)

theorem range_map_getD (l : List Val) :
    (List.range l.length).map (fun i => l.getD i Val.null) = l := by
  apply List.ext_getElem
  · simp
  · intro i h1 h2
    simp only [List.getElem_map, List.getElem_range, List.getD_eq_getElem?_getD]
    rw [List.getElem?_eq_getElem h2]
    rfl

theorem range_map_const_null (n : Nat) :
    (List.range n).map (fun _ => Val.null) = List.replicate n Val.null := by
  induction n with
  | zero => rfl
  | succ m ih =>
      rw [List.range_succ, List.map_append, ih, List.replicate_succ']
      rfl

theorem firstNonNull_singleton (v : Val) : firstNonNull [v] = v := by
  by_cases hv : v = Val.null
  · subst hv
    rfl
  · unfold firstNonNull
    rw [List.find?_cons_of_pos _ (by simp [hv])]

/-- Characterization shared by the C6 claim and the pipeline proofs: after
coalescing, the target column holds the row-wise first non-null value over the
present candidate columns (an all-null column when none is present). -/
theorem coalesceCol_getCol (t : Table) (newCol : String) (candidates : List String)
    (hwf : WF t) (hmem : newCol ∈ candidates) :
    (coalesceCol t newCol candidates).getCol newCol = coalVals t candidates ∧
    (coalesceCol t newCol candidates).hasCol newCol = true := by
  unfold coalesceCol
  rcases hfound : candidates.filter (fun c => t.hasCol c) with _ | ⟨a, found'⟩
  · have hnew : t.hasCol newCol = false := by
      by_contra hcon
      have h1 : t.hasCol newCol = true := by
        revert hcon; cases t.hasCol newCol <;> simp
      have : newCol ∈ candidates.filter (fun c => t.hasCol c) :=
        List.mem_filter.mpr ⟨hmem, h1⟩
      rw [hfound] at this
      simp at this
    rw [if_neg (by simp [hnew])]
    refine ⟨?_, hasCol_setCol_self t newCol _⟩
    rw [getCol_setCol_self]
    unfold coalVals
    rw [hfound]
    exact (range_map_const_null t.nrows).symm
  · rcases found' with _ | ⟨b, found''⟩
    · -- single present candidate: the column is copied
      have ha : t.hasCol a = true := by
        have : a ∈ candidates.filter (fun c => t.hasCol c) := by rw [hfound]; simp
        exact (List.mem_filter.mp this).2
      refine ⟨?_, hasCol_setCol_self t newCol _⟩
      rw [getCol_setCol_self]
      unfold coalVals
      rw [hfound]
      have hlen : (t.getCol a).length = t.nrows := getCol_length hwf ha
      conv_lhs => rw [← range_map_getD (t.getCol a)]
      rw [hlen]
      apply List.map_congr_left
      intro i _
      rw [List.map_cons, List.map_nil, firstNonNull_singleton]
      rfl
    · refine ⟨?_, hasCol_setCol_self t newCol _⟩
      rw [getCol_setCol_self]

/-- C6: for each coalesced target field, the resulting column exists and each
row holds the first non-null value across the priority-ordered candidate alias
columns present in the table (row-wise); when no alias column exists the
target column still exists and is entirely null. -/
theorem c6_coalescing (t : Table) (newCol : String) (candidates : List String)
    (hwf : WF t) (hmem : newCol ∈ candidates) :
    (coalesceCol t newCol candidates).hasCol newCol = true ∧
    (coalesceCol t newCol candidates).getCol newCol =
      (List.range t.nrows).map (fun i =>
        firstNonNull ((candidates.filter (fun c => t.hasCol c)).map (fun c => t.cell c i))) ∧
    ((∀ c ∈ candidates, t.hasCol c = false) →
      (coalesceCol t newCol candidates).getCol newCol =
        List.replicate t.nrows Val.null) := by
  obtain ⟨hval, hhas⟩ := coalesceCol_getCol t newCol candidates hwf hmem
  refine ⟨hhas, hval, ?_⟩
  intro hall
  rw [hval]
  unfold coalVals
  have hfilter : candidates.filter (fun c => t.hasCol c) = [] := by
    rw [List.filter_eq_nil_iff]
    intro c hc
    simp [hall c hc]
  rw [hfilter]
  exact range_map_const_null t.nrows

/-- Concrete two-row table used by witnesses. -/
def wTbl : Table :=
  ⟨2, [("member_state", [Val.null, Val.str "KS"]), ("zip", [Val.null, Val.null])]⟩

/-- C6 witness: coalescing state over a table that only has member_state
copies that column; coalescing city over the same table (no alias present)
synthesizes an all-null column. -/
theorem c6_witness :
    (coalesceCol wTbl "state" ["state", "member_state", "state_code"]).getCol "state" =
      [Val.null, Val.str "KS"] ∧
    (coalesceCol wTbl "city" ["city", "member_city"]).getCol "city" =
      [Val.null, Val.null] := by
  constructor
  · rw [(c6_coalescing wTbl "state" ["state", "member_state", "state_code"]
      (by intro c hc; fin_cases hc <;> rfl) (by decide)).2.1]
    decide
  · rw [(c6_coalescing wTbl "city" ["city", "member_city"]
      (by intro c hc; fin_cases hc <;> rfl) (by decide)).2.2 (by decide)]
    decide

/-- Resolution of the date_input value (lines 224-231): only a 2-element
tuple is taken as the (start, end) range; anything else — a single endpoint
or a still-incomplete selection — falls back to the default full window. -/
def resolveDateRange (minD maxD : Int) : List Int → Int × Int
  | [s, e] => (s, e)
  | _ => (minD, maxD)

/-- Series.between on one event_date cell: inclusive on both ends; a missing
or unparsed date never matches. -/
def dateBetween (v : Val) (s e : Int) : Bool :=
  match v with
  | Val.date d => decide (s ≤ d) && decide (d ≤ e)
  | _ => false

/-- base_mask (lines 236-238) at one row: true unless a concrete browser is
selected and the browser column is present with a differing (or missing)
cell. -/
def browserMask (t : Table) (sel : String) (i : Nat) : Bool :=
  if sel ≠ "All" ∧ t.hasCol "browser" = true then t.cell "browser" i == Val.str sel
  else true

/-- Line 240, df = data.loc[base_mask & between(start_d, end_d)]: the list of
selected row indices. -/
def selectWindow (t : Table) (sel : String) (s e : Int) : List Nat :=
  (List.range t.nrows).filter (fun i =>
    browserMask t sel i && dateBetween (t.cell "event_date" i) s e)

/-- C8: with the unrestricted selection "All" the categorical predicate is
constantly true, and the rows selected for any date range are exactly the
rows selected by the date predicate alone (hence equal row counts). -/
theorem c8_unrestricted_filter (t : Table) (s e : Int) :
    (∀ i, browserMask t "All" i = true) ∧
    selectWindow t "All" s e =
      (List.range t.nrows).filter (fun i => dateBetween (t.cell "event_date" i) s e) ∧
    (selectWindow t "All" s e).length =
      ((List.range t.nrows).filter
        (fun i => dateBetween (t.cell "event_date" i) s e)).length := by
  have hmask : ∀ i, browserMask t "All" i = true := by
    intro i
    unfold browserMask
    rw [if_neg]
    intro hcon
    exact hcon.1 rfl
  have hsel : selectWindow t "All" s e =
      (List.range t.nrows).filter (fun i => dateBetween (t.cell "event_date" i) s e) := by
    unfold selectWindow
    apply List.filter_congr
    intro i _
    rw [hmask i, Bool.true_and]
  exact ⟨hmask, hsel, by rw [hsel]⟩

theorem dateBetween_reversed {s e : Int} (h : e < s) (v : Val) :
    dateBetween v s e = false := by
  cases v with
  | date d =>
      show (decide (s ≤ d) && decide (d ≤ e)) = false
      by_cases hsd : s ≤ d
      · rw [decide_eq_true hsd, Bool.true_and, decide_eq_false (by omega)]
      · rw [decide_eq_false hsd, Bool.false_and]
  | str v => rfl
  | num q => rfl
  | null => rfl
  | posInf => rfl
  | negInf => rfl

/-- C7 (amended): a date_input value that is not a 2-element range (single
endpoint, empty, or longer) falls back to the default full-range window; a
reversed 2-element range, however, is NOT replaced by the default — it is
used as given, and the resulting BETWEEN predicate then selects no rows. -/
theorem c7_date_range_fallback (minD maxD : Int) :
    (∀ dr : List Int, dr.length ≠ 2 → resolveDateRange minD maxD dr = (minD, maxD)) ∧
    (∀ s e : Int, resolveDateRange minD maxD [s, e] = (s, e)) ∧
    (∀ (t : Table) (sel : String) (s e : Int), e < s → selectWindow t sel s e = []) := by
  refine ⟨?_, fun s e => rfl, ?_⟩
  · intro dr h
    match dr with
    | [] => rfl
    | [a] => rfl
    | [a, b] => exact absurd rfl h
    | a :: b :: c :: rest => rfl
  · intro t sel s e h
    unfold selectWindow
    rw [List.filter_eq_nil_iff]
    intro i _
    rw [dateBetween_reversed h, Bool.and_false]
    simp

/-- C7 counterexample: the reversed two-element range (50, 10) is used as
given, not replaced by the default full-range window (0, 100). -/
theorem c7_counterexample :
    resolveDateRange 0 100 [50, 10] = (50, 10) ∧
    (10 : Int) < 50 ∧
    resolveDateRange 0 100 [50, 10] ≠ (0, 100) := by
  refine ⟨rfl, by decide, by decide⟩

/-- C7 witness: the fallback and the reversed-range emptiness at concrete
inputs. -/
theorem c7_witness :
    resolveDateRange 0 100 [7] = (0, 100) ∧ selectWindow wTbl "All" 50 10 = [] :=
  ⟨(c7_date_range_fallback 0 100).1 [7] (by decide),
   (c7_date_range_fallback 0 100).2.2 wTbl "All" 50 10 (by decide)⟩

/-- The canonical event-type vocabulary EXPECTED (line 243). -/
def EXPECTED : List String := ["crossover", "link_click", "signup", "improvement"]

/-- The dict returned by compute_counts. -/
structure FunnelCounts where
  crossover : Nat
  link_click : Nat
  signup : Nat
  improve : Nat
deriving DecidableEq, Repr

/-- frame["event_type"].value_counts().get(v, 0): rows whose event_type cell
is the string v. -/
def countEvt (t : Table) (v : String) : Nat :=
  ((t.getCol "event_type").filter (fun c => c = Val.str v)).length

/-- frame["event_type"].dropna().isin(EXPECTED).any(). -/
def hasCanonical (t : Table) : Bool :=
  (t.getCol "event_type").any (fun c =>
    match c with
    | Val.str s => EXPECTED.contains s
    | _ => false)

/-- The branch condition of compute_counts (line 246). -/
def usesExactPath (t : Table) : Bool := t.hasCol "event_type" && hasCanonical t

/-- frame["traffic_source"].notna().sum(). -/
def countNotNullTraffic (t : Table) : Nat :=
  ((t.getCol "traffic_source").filter (fun c => c ≠ Val.null)).length

/-- compute_counts (lines 245-258).  The heuristic constants int(0.33*total)
and int(0.05*total) are idealized as the exact floor divisions 33*total/100
and 5*total/100. -/
def compute_counts (t : Table) : FunnelCounts :=
  if usesExactPath t then
    { crossover := countEvt t "crossover", link_click := countEvt t "link_click",
      signup := countEvt t "signup", improve := countEvt t "improvement" }
  else
    { crossover := t.nrows,
      link_click := if t.hasCol "traffic_source" then countNotNullTraffic t
                    else 33 * t.nrows / 100,
      signup := 5 * t.nrows / 100,
      improve := 0 }

/-- C5 (amended): when the view contains a canonical event type the funnel
counts are the exact per-type row counts, and otherwise the heuristic
approximation is used (total rows as crossover, non-null traffic-source count
as clicks); but the two paths produce the same output shape with no marker,
so the output does NOT distinguish which path produced it. -/
theorem c5_funnel_counts (t : Table) :
    (usesExactPath t = true →
      compute_counts t = ⟨countEvt t "crossover", countEvt t "link_click",
        countEvt t "signup", countEvt t "improvement"⟩) ∧
    (usesExactPath t = false →
      compute_counts t = ⟨t.nrows,
        (if t.hasCol "traffic_source" then countNotNullTraffic t else 33 * t.nrows / 100),
        5 * t.nrows / 100, 0⟩) := by
  constructor
  · intro h
    unfold compute_counts
    rw [if_pos h]
  · intro h
    unfold compute_counts
    rw [if_neg (by simp [h])]

/-- One-row table whose event_type is canonical (exact-counting path). -/
def c5TblExact : Table :=
  ⟨1, [("event_type", [Val.str "crossover"]), ("traffic_source", [Val.null])]⟩

/-- One-row table with no canonical event type (heuristic path). -/
def c5TblHeur : Table :=
  ⟨1, [("event_type", [Val.str "other"]), ("traffic_source", [Val.null])]⟩

/-- C5 counterexample: an exact-path view and a heuristic-path view yield
identical outputs, so a caller cannot tell from the output which of the two
paths produced it — the claimed distinguishability does not exist. -/
theorem c5_counterexample :
    usesExactPath c5TblExact = true ∧ usesExactPath c5TblHeur = false ∧
    compute_counts c5TblExact = compute_counts c5TblHeur := by
  refine ⟨by decide, by decide, by decide⟩

/-- C5 witness: both branches discharged at concrete views. -/
theorem c5_witness :
    compute_counts c5TblExact = ⟨1, 0, 0, 0⟩ ∧
    compute_counts c5TblHeur = ⟨1, 0, 0, 0⟩ := by
  constructor
  · rw [(c5_funnel_counts c5TblExact).1 (by decide)]
    decide
  · rw [(c5_funnel_counts c5TblHeur).2 (by decide)]
    decide

def intRepr (i : Int) : String :=
  if i < 0 then "-" ++ natToStr i.natAbs else natToStr i.natAbs

/-- Rendering of a rational cell under astype("string").  The exact decimal
formatting is immaterial to every claim (the modelled flows only ever cast
string and missing cells); a numerator/denominator rendering keeps the
function total. -/
def qRepr (q : ℚ) : String :=
  if q.den = 1 then intRepr q.num else intRepr q.num ++ "/" ++ natToStr q.den

/-- astype("string") on one cell: pd.NA stays NA, strings stay themselves,
other values are rendered as strings. -/
def castStr : Val → Val
  | Val.null => Val.null
  | Val.str s => Val.str s
  | Val.num q => Val.str (qRepr q)
  | Val.date d => Val.str (intRepr d)
  | Val.posInf => Val.str "inf"
  | Val.negInf => Val.str "-inf"

theorem castStr_castStr (v : Val) : castStr (castStr v) = castStr v := by
  cases v <;> rfl

theorem castStr_null_iff (v : Val) : castStr v = Val.null ↔ v = Val.null := by
  cases v <;> simp [castStr]

def isDigitChar (c : Char) : Bool := 48 ≤ c.toNat && c.toNat ≤ 57

def digitVal (c : Char) : Int := (c.toNat : Int) - 48

/-- Modelled from the spec: pd.to_datetime(col, errors="coerce") is a pandas
library call whose implementation is not part of this repository; the spec
says malformed date strings coerce to null (non-fatal).  A minimal ISO
yyyy-mm-dd parser stands in for the library parser, with a date encoded as
the integer y*10000 + m*100 + d. -/
def parseDateStr (s : String) : Val :=
  match s.data with
  | [y1, y2, y3, y4, '-', m1, m2, '-', d1, d2] =>
      if isDigitChar y1 && isDigitChar y2 && isDigitChar y3 && isDigitChar y4 &&
         isDigitChar m1 && isDigitChar m2 && isDigitChar d1 && isDigitChar d2 then
        Val.date
          ((digitVal y1 * 1000 + digitVal y2 * 100 + digitVal y3 * 10 + digitVal y4) * 10000 +
            (digitVal m1 * 10 + digitVal m2) * 100 + (digitVal d1 * 10 + digitVal d2))
      else Val.null
  | _ => Val.null

/-- pd.to_datetime(cell, errors="coerce"): datetimes pass through, strings
are parsed (null on failure), integral numbers act as an epoch-style index,
everything else coerces to null. -/
def toDatetime : Val → Val
  | Val.date d => Val.date d
  | Val.str s => parseDateStr s
  | Val.num q => if q.den = 1 then Val.date q.num else Val.null
  | _ => Val.null

theorem parseDateStr_shape (s : String) :
    (∃ d, parseDateStr s = Val.date d) ∨ parseDateStr s = Val.null := by
  unfold parseDateStr
  split
  · split_ifs
    · exact Or.inl ⟨_, rfl⟩
    · exact Or.inr rfl
  · exact Or.inr rfl

theorem toDatetime_idem (v : Val) : toDatetime (toDatetime v) = toDatetime v := by
  cases v with
  | date d => rfl
  | str s =>
      show toDatetime (parseDateStr s) = parseDateStr s
      rcases parseDateStr_shape s with ⟨d, hd⟩ | hd <;> rw [hd] <;> rfl
  | num q =>
      by_cases h : q.den = 1
      · show toDatetime (if q.den = 1 then Val.date q.num else Val.null) =
          (if q.den = 1 then Val.date q.num else Val.null)
        rw [if_pos h]
        rfl
      · show toDatetime (if q.den = 1 then Val.date q.num else Val.null) =
          (if q.den = 1 then Val.date q.num else Val.null)
        rw [if_neg h]
        rfl
  | null => rfl
  | posInf => rfl
  | negInf => rfl

/-- Event-type normalization applied to one cell (lines 169-178): after
astype("string") the cells are strings or NA; NA stays NA. -/
def normEvtVal : Val → Val
  | Val.str s => Val.str (normalizeEventTypeStr s)
  | v => v

theorem normEvtVal_idem (v : Val) : normEvtVal (normEvtVal v) = normEvtVal v := by
  cases v with
  | str s =>
      show Val.str (normalizeEventTypeStr (normalizeEventTypeStr s)) =
        Val.str (normalizeEventTypeStr s)
      rw [normalizeEventTypeStr_idem]
  | num q => rfl
  | date d => rfl
  | null => rfl
  | posInf => rfl
  | negInf => rfl

/-- The fixed set of expected string columns (lines 161-162). -/
def STRING_COLS : List String :=
  ["event_type", "traffic_source", "utm_campaign", "device_type", "browser",
   "zipcode", "retention_status", "program_activity", "user_id",
   "program_destination"]

/-- df.columns = lower_unique(make_unique(df.columns)) (line 138). -/
def stageRename (t : Table) : Table :=
  ⟨t.nrows, (normalizeColumns t.colNames).zip (t.cols.map Prod.snd)⟩

/-- The three coalesce targets (lines 141-150), in order. -/
def stageCoalesce (t : Table) : Table :=
  coalesceCol
    (coalesceCol (coalesceCol t "state" ["state", "member_state", "state_code"])
      "city" ["city", "member_city"])
    "zipcode" ["zipcode", "zip", "member_zip"]

def castColStr (t : Table) (n : String) : Table :=
  if t.hasCol n then t.setCol n ((t.getCol n).map castStr) else t

/-- The guarded string casts of state and city (lines 152-155). -/
def stageCastStateCity (t : Table) : Table := castColStr (castColStr t "state") "city"

/-- BMI derivation (lines 157-159), only when both source columns exist. -/
def stageBmi (t : Table) : Table :=
  if t.hasCol "weight" = true ∧ t.hasCol "height" = true then
    t.setCol "bmi" (List.zipWith bmiVal (t.getCol "weight") (t.getCol "height"))
  else t

/-- Per-column body of the loop at lines 161-164: synthesize an all-NA column
when absent, then cast to the nullable string dtype. -/
def ensureStringCol (t : Table) (c : String) : Table :=
  let t1 := if t.hasCol c then t else t.setCol c (List.replicate t.nrows Val.null)
  t1.setCol c ((t1.getCol c).map castStr)

def stageEnsure (t : Table) : Table := STRING_COLS.foldl ensureStringCol t

/-- Date coercions (lines 166-168).  df["event_date"] on a frame without that
column raises KeyError — surfaced as none. -/
def stageDates (t : Table) : Option Table :=
  if t.hasCol "event_date" then
    some
      (let t1 := t.setCol "event_date" ((t.getCol "event_date").map toDatetime)
       if t1.hasCol "event_timestamp" then
         t1.setCol "event_timestamp" ((t1.getCol "event_timestamp").map toDatetime)
       else t1)
  else none

/-- Event-type normalization over the column (lines 169-178). -/
def stageEvt (t : Table) : Table :=
  if t.hasCol "event_type" then
    t.setCol "event_type" ((t.getCol "event_type").map normEvtVal)
  else t

/-- The normalization body of load_data_from_csv (lines 118-180): empty-frame
guard, column renaming, coalescing, state/city casts, BMI derivation,
expected-column synthesis and casts, date coercions, event-type
normalization. -/
def normalizeTable (t : Table) : Option Table :=
  if t.isEmptyT then some t
  else
    (stageDates (stageEnsure (stageBmi (stageCastStateCity (stageCoalesce
      (stageRename t)))))).map stageEvt

theorem bmiVal_num {w h : ℚ} (hne : h ≠ 0) :
    bmiVal (Val.num w) (Val.num h) = Val.num (w / (h * h)) := by
  unfold bmiVal
  have hm : pandasMul (Val.num h) (Val.num h) = Val.num (h * h) := rfl
  rw [hm, pandasDiv_num_num (mul_ne_zero hne hne)]

theorem bmiVal_70_0 : bmiVal (Val.num 70) (Val.num 0) = Val.posInf := by
  unfold bmiVal
  have hm : pandasMul (Val.num 0) (Val.num 0) = Val.num (0 * 0) := rfl
  rw [hm, mul_zero, pandasDiv_pos_zero (by norm_num)]

theorem bmiVal_0_0 : bmiVal (Val.num 0) (Val.num 0) = Val.null := by
  unfold bmiVal
  have hm : pandasMul (Val.num 0) (Val.num 0) = Val.num (0 * 0) := rfl
  rw [hm, mul_zero, pandasDiv_zero_zero]

/-- C4 (amended): bmi is derived only when both the weight and height columns
are present, row-wise as weight / height²; a missing weight or height yields
null, and a 0/0 row yields null, but a nonzero weight over a zero height
yields an infinity, not null; BMI(70, 1.75) = 1120/49 (about 22.86)
exactly. -/
theorem c4_bmi (t : Table) :
    (¬ (t.hasCol "weight" = true ∧ t.hasCol "height" = true) → stageBmi t = t) ∧
    (t.hasCol "weight" = true → t.hasCol "height" = true →
      stageBmi t = t.setCol "bmi"
        (List.zipWith bmiVal (t.getCol "weight") (t.getCol "height"))) ∧
    (∀ h : Val, bmiVal Val.null h = Val.null) ∧
    (∀ w : Val, bmiVal w Val.null = Val.null) ∧
    (∀ w h : ℚ, h ≠ 0 → bmiVal (Val.num w) (Val.num h) = Val.num (w / (h * h))) ∧
    bmiVal (Val.num 70) (Val.num (7 / 4)) = Val.num (1120 / 49) ∧
    bmiVal (Val.num 70) (Val.num 0) = Val.posInf ∧
    bmiVal (Val.num 0) (Val.num 0) = Val.null := by
  refine ⟨?_, ?_, ?_, ?_, fun w h hne => bmiVal_num hne, ?_, bmiVal_70_0, bmiVal_0_0⟩
  · intro h
    unfold stageBmi
    rw [if_neg h]
  · intro h1 h2
    unfold stageBmi
    rw [if_pos ⟨h1, h2⟩]
  · intro h
    cases h <;> rfl
  · intro w
    cases w <;> rfl
  · rw [bmiVal_num (by norm_num : (7 : ℚ) / 4 ≠ 0)]
    congr 1
    norm_num

/-- C4 counterexample: BMI(weight=70, height=0) is +infinity, not null —
numpy division of a positive float by zero yields inf and np.errstate only
silences the warning. -/
theorem c4_counterexample :
    bmiVal (Val.num 70) (Val.num 0) = Val.posInf ∧ Val.posInf ≠ Val.null :=
  ⟨bmiVal_70_0, by simp⟩

/-- C4 witness: the amended facts discharged at concrete inputs. -/
theorem c4_witness :
    bmiVal (Val.num 70) (Val.num 2) = Val.num (35 / 2) ∧ stageBmi wTbl = wTbl := by
  constructor
  · rw [(c4_bmi wTbl).2.2.2.2.1 70 2 (by norm_num)]
    have h : (70 : ℚ) / (2 * 2) = 35 / 2 := by norm_num
    rw [h]
  · exact (c4_bmi wTbl).1 (by decide)

theorem nrows_ensure (t : Table) (c : String) : (ensureStringCol t c).nrows = t.nrows := by
  unfold ensureStringCol
  by_cases h : t.hasCol c
  · rw [if_pos h]
    show (t.setCol c ((t.getCol c).map castStr)).nrows = t.nrows
    rfl
  · rw [if_neg h]
    show ((t.setCol c (List.replicate t.nrows Val.null)).setCol c
      (((t.setCol c (List.replicate t.nrows Val.null)).getCol c).map castStr)).nrows = t.nrows
    rfl

theorem hasCol_ensure_self (t : Table) (c : String) :
    (ensureStringCol t c).hasCol c = true := by
  unfold ensureStringCol
  exact hasCol_setCol_self _ c _

theorem hasCol_ensure_ne (t : Table) (c m : String) (h : m ≠ c) :
    (ensureStringCol t c).hasCol m = t.hasCol m := by
  unfold ensureStringCol
  by_cases hc : t.hasCol c
  · rw [if_pos hc, hasCol_setCol_ne _ _ _ _ h]
  · rw [if_neg hc, hasCol_setCol_ne _ _ _ _ h, hasCol_setCol_ne _ _ _ _ h]

theorem getCol_ensure_ne (t : Table) (c m : String) (h : m ≠ c) :
    (ensureStringCol t c).getCol m = t.getCol m := by
  unfold ensureStringCol
  by_cases hc : t.hasCol c
  · rw [if_pos hc, getCol_setCol_ne _ _ _ _ h]
  · rw [if_neg hc, getCol_setCol_ne _ _ _ _ h, getCol_setCol_ne _ _ _ _ h]

theorem getCol_ensure_self (t : Table) (c : String) :
    (ensureStringCol t c).getCol c =
      (if t.hasCol c = true then t.getCol c else List.replicate t.nrows Val.null).map
        castStr := by
  unfold ensureStringCol
  by_cases hc : t.hasCol c
  · rw [if_pos hc, if_pos hc, getCol_setCol_self]
  · rw [if_neg hc, if_neg (by simp [hc]), getCol_setCol_self, getCol_setCol_self]

theorem ensure_stable (t : Table) (c : String) (h1 : t.hasCol c = true)
    (h2 : ∀ v ∈ t.getCol c, castStr v = v) : ensureStringCol t c = t := by
  unfold ensureStringCol
  rw [if_pos h1]
  show t.setCol c ((t.getCol c).map castStr) = t
  rw [map_eq_self_of_forall h2, setCol_self t c _ h1 rfl]

theorem WF_ensure {t : Table} (c : String) (hwf : WF t) : WF (ensureStringCol t c) := by
  unfold ensureStringCol
  by_cases hc : t.hasCol c
  · rw [if_pos hc]
    apply WF_setCol hwf
    rw [List.length_map]
    exact getCol_length hwf hc
  · rw [if_neg hc]
    have hwf1 : WF (t.setCol c (List.replicate t.nrows Val.null)) :=
      WF_setCol hwf (List.length_replicate _ _)
    apply WF_setCol hwf1
    rw [List.length_map]
    exact getCol_length hwf1 (hasCol_setCol_self t c _)

theorem nrows_foldl_ensure (l : List String) :
    ∀ t : Table, (l.foldl ensureStringCol t).nrows = t.nrows := by
  induction l with
  | nil => intro t; rfl
  | cons c rest ih =>
      intro t
      show (rest.foldl ensureStringCol (ensureStringCol t c)).nrows = t.nrows
      rw [ih, nrows_ensure]

theorem hasCol_ensure_mono (t : Table) (c m : String) (h : t.hasCol m = true) :
    (ensureStringCol t c).hasCol m = true := by
  by_cases hmc : m = c
  · subst hmc
    exact hasCol_ensure_self t m
  · rw [hasCol_ensure_ne t c m hmc]
    exact h

theorem hasCol_foldl_ensure_mono (l : List String) :
    ∀ t : Table, ∀ m, t.hasCol m = true → (l.foldl ensureStringCol t).hasCol m = true := by
  induction l with
  | nil => intro t m h; exact h
  | cons c rest ih =>
      intro t m h
      exact ih (ensureStringCol t c) m (hasCol_ensure_mono t c m h)

theorem hasCol_foldl_ensure_of_mem (l : List String) :
    ∀ t : Table, ∀ c ∈ l, (l.foldl ensureStringCol t).hasCol c = true := by
  induction l with
  | nil => intro t c h; simp at h
  | cons d rest ih =>
      intro t c h
      rcases List.mem_cons.mp h with rfl | h1
      · exact hasCol_foldl_ensure_mono rest (ensureStringCol t c) c
          (hasCol_ensure_self t c)
      · exact ih (ensureStringCol t d) c h1

theorem getCol_foldl_ensure_of_not_mem (l : List String) :
    ∀ t : Table, ∀ m, m ∉ l →
      (l.foldl ensureStringCol t).getCol m = t.getCol m ∧
      (l.foldl ensureStringCol t).hasCol m = t.hasCol m := by
  induction l with
  | nil => intro t m _; exact ⟨rfl, rfl⟩
  | cons c rest ih =>
      intro t m h
      have hmc : m ≠ c := fun hh => h (hh ▸ List.mem_cons_self c rest)
      have hmr : m ∉ rest := fun hh => h (List.mem_cons_of_mem c hh)
      obtain ⟨hg, hh2⟩ := ih (ensureStringCol t c) m hmr
      exact ⟨hg.trans (getCol_ensure_ne t c m hmc),
        hh2.trans (hasCol_ensure_ne t c m hmc)⟩

theorem getCol_foldl_ensure_of_mem (l : List String) :
    ∀ t : Table, ∀ c ∈ l, l.Nodup →
      (l.foldl ensureStringCol t).getCol c =
        (if t.hasCol c = true then t.getCol c else List.replicate t.nrows Val.null).map
          castStr := by
  induction l with
  | nil => intro t c h; simp at h
  | cons d rest ih =>
      intro t c h hnd
      rcases List.mem_cons.mp h with rfl | h1
      · have hcr : c ∉ rest := (List.nodup_cons.mp hnd).1
        show (rest.foldl ensureStringCol (ensureStringCol t c)).getCol c = _
        rw [(getCol_foldl_ensure_of_not_mem rest (ensureStringCol t c) c hcr).1]
        exact getCol_ensure_self t c
      · have hcd : c ≠ d := by
          intro hh
          subst hh
          exact (List.nodup_cons.mp hnd).1 h1
        show (rest.foldl ensureStringCol (ensureStringCol t d)).getCol c = _
        rw [ih (ensureStringCol t d) c h1 (List.nodup_cons.mp hnd).2]
        rw [hasCol_ensure_ne t d c hcd, getCol_ensure_ne t d c hcd, nrows_ensure]

theorem foldl_ensure_stable (l : List String) :
    ∀ t : Table,
      (∀ c ∈ l, t.hasCol c = true ∧ ∀ v ∈ t.getCol c, castStr v = v) →
      l.foldl ensureStringCol t = t := by
  induction l with
  | nil => intro t _; rfl
  | cons c rest ih =>
      intro t h
      obtain ⟨h1, h2⟩ := h c (List.mem_cons_self c rest)
      show rest.foldl ensureStringCol (ensureStringCol t c) = t
      rw [ensure_stable t c h1 h2]
      apply ih
      intro d hd
      exact h d (List.mem_cons_of_mem c hd)

theorem WF_foldl_ensure (l : List String) :
    ∀ t : Table, WF t → WF (l.foldl ensureStringCol t) := by
  induction l with
  | nil => intro t h; exact h
  | cons c rest ih => intro t h; exact ih (ensureStringCol t c) (WF_ensure c h)

/-- Month truncation of an event_date cell (dt.to_period("M")); a NaT row is
dropped by the groupby. -/
def monthPeriod : Val → Option Int
  | Val.date d => some (d / 100)
  | _ => none

def insSorted (x : Int) : List Int → List Int
  | [] => [x]
  | y :: ys => if x < y then x :: y :: ys else if x = y then y :: ys else y :: insSorted x ys

/-- Sorted distinct group keys, as pandas groupby orders them. -/
def sortDedup (l : List Int) : List Int := l.foldr insSorted []

/-- Series.nunique: distinct values ignoring NA. -/
def nuniqueVals (l : List Val) : Nat := ((l.filter (fun v => v ≠ Val.null)).dedup).length

/-- get_unique_ids_by_month (lines 297-309): optional case-insensitive
event-type filter (rows with a missing event_type never match), month
truncation of event_date, grouping by month, and the count of distinct
user_id values per month — or, when the user_id column is absent, the row
count per month. -/
def get_unique_ids_by_month (t : Table) (event_filter : Option String) :
    List (Int × Nat) :=
  let keep : Nat → Bool := fun i =>
    match event_filter with
    | none => true
    | some f =>
        if t.hasCol "event_type" then
          (match t.cell "event_type" i with
           | Val.str s => pyLower s = pyLower f
           | _ => false)
        else true
  let rows := ((List.range t.nrows).filter keep).filterMap
    (fun i => (monthPeriod (t.cell "event_date" i)).map (fun p => (p, i)))
  let periods := sortDedup (rows.map Prod.fst)
  if t.hasCol "user_id" then
    periods.map (fun p =>
      (p, nuniqueVals ((rows.filter (fun r => r.1 = p)).map
        (fun r => t.cell "user_id" r.2))))
  else
    periods.map (fun p => (p, (rows.filter (fun r => r.1 = p)).length))

theorem getD_null_of_all {l : List Val} (h : ∀ v ∈ l, v = Val.null) (i : Nat) :
    l.getD i Val.null = Val.null := by
  rw [List.getD_eq_getElem?_getD]
  rcases hel : l[i]? with _ | v
  · rfl
  · have hv : v ∈ l := List.getElem?_mem hel
    rw [h v hv]
    rfl

theorem nuniqueVals_all_null {l : List Val} (h : ∀ v ∈ l, v = Val.null) :
    nuniqueVals l = 0 := by
  unfold nuniqueVals
  have hf : l.filter (fun v => v ≠ Val.null) = [] := by
    rw [List.filter_eq_nil_iff]
    intro a ha
    simp [h a ha]
  rw [hf]
  rfl

theorem hasCol_setCol_mono (t : Table) (n m : String) (vs : List Val)
    (h : t.hasCol m = true) : (t.setCol n vs).hasCol m = true := by
  by_cases hmn : m = n
  · subst hmn
    exact hasCol_setCol_self t m vs
  · rw [hasCol_setCol_ne t n m vs hmn]
    exact h

theorem stageDates_some {t td : Table} (hd : stageDates t = some td) :
    t.hasCol "event_date" = true := by
  unfold stageDates at hd
  by_cases h : t.hasCol "event_date"
  · exact h
  · rw [if_neg (by simp [h])] at hd
    simp at hd

theorem stageDates_hasCol_mono {t td : Table} (hd : stageDates t = some td)
    (m : String) (hm : t.hasCol m = true) : td.hasCol m = true := by
  unfold stageDates at hd
  rw [if_pos (by simp [stageDates_some hd])] at hd
  · have h1 := Option.some_inj.mp hd
    subst h1
    set t1 := t.setCol "event_date" ((t.getCol "event_date").map toDatetime) with ht1
    have hm1 : t1.hasCol m = true := hasCol_setCol_mono t _ m _ hm
    by_cases h2 : t1.hasCol "event_timestamp"
    · rw [if_pos h2]
      exact hasCol_setCol_mono t1 _ m _ hm1
    · rw [if_neg h2]
      exact hm1

theorem stageEvt_hasCol_mono (t : Table) (m : String) (hm : t.hasCol m = true) :
    (stageEvt t).hasCol m = true := by
  unfold stageEvt
  by_cases h : t.hasCol "event_type"
  · rw [if_pos h]
    exact hasCol_setCol_mono t _ m _ hm
  · rw [if_neg h]
    exact hm

/-- C10: after normalization of a non-empty frame the user_id column always
exists (it is synthesized all-null when absent), so the row-count fallback of
get_unique_ids_by_month is unreachable for normalized tables; and on any
frame whose user_id cells are all null, every per-period unique-ID count is 0
(nunique ignores NA) even for periods with matching rows — the rollup never
falls back to row counts there. -/
theorem c10_unique_ids :
    (∀ t t1 : Table, t.isEmptyT = false → normalizeTable t = some t1 →
      t1.hasCol "user_id" = true) ∧
    (∀ (t : Table) (f : Option String), t.hasCol "user_id" = true →
      (∀ v ∈ t.getCol "user_id", v = Val.null) →
      ∀ pr ∈ get_unique_ids_by_month t f, pr.2 = 0) := by
  constructor
  · intro t t1 hne h
    unfold normalizeTable at h
    rw [if_neg (by simp [hne])] at h
    rcases hd : stageDates (stageEnsure (stageBmi (stageCastStateCity (stageCoalesce
      (stageRename t))))) with _ | td
    · rw [hd] at h
      simp at h
    · rw [hd] at h
      simp only [Option.map_some'] at h
      have h1 : (stageEnsure (stageBmi (stageCastStateCity (stageCoalesce
          (stageRename t))))).hasCol "user_id" = true := by
        apply hasCol_foldl_ensure_of_mem
        decide
      have h2 := stageDates_hasCol_mono hd "user_id" h1
      rw [← Option.some_inj.mp h]
      exact stageEvt_hasCol_mono td "user_id" h2
  · intro t f huid hnull pr hpr
    unfold get_unique_ids_by_month at hpr
    rw [if_pos huid] at hpr
    rcases List.mem_map.mp hpr with ⟨p, _, rfl⟩
    apply nuniqueVals_all_null
    intro v hv
    rcases List.mem_map.mp hv with ⟨r, _, rfl⟩
    unfold Table.cell
    exact getD_null_of_all hnull r.2

/-- One-row table with an all-null user_id but a dated crossover row. -/
def c10Tbl : Table :=
  ⟨1, [("event_type", [Val.str "crossover"]), ("event_date", [Val.date 20240115]),
       ("user_id", [Val.null])]⟩

/-- C10 witness: a month with a matching row still counts 0 unique ids, and a
concrete normalized table has the user_id column. -/
theorem c10_witness :
    (∀ pr ∈ get_unique_ids_by_month c10Tbl (some "crossover"), pr.2 = 0) ∧
    get_unique_ids_by_month c10Tbl (some "crossover") = [(202401, 0)] := by
  refine ⟨c10_unique_ids.2 c10Tbl (some "crossover") (by decide) (by decide), by decide⟩

theorem map_comp_idem {f : Val → Val} (hf : ∀ v, f (f v) = f v) (l : List Val) :
    (l.map f).map f = l.map f := by
  rw [List.map_map]
  apply List.map_congr_left
  intro v _
  exact hf v

theorem firstNonNull_cons (v : Val) (l : List Val) :
    firstNonNull (v :: l) = if v = Val.null then firstNonNull l else v := by
  by_cases hv : v = Val.null
  · subst hv
    rw [if_pos rfl]
    unfold firstNonNull
    rw [List.find?_cons_of_neg _ (by simp)]
  · rw [if_neg hv]
    unfold firstNonNull
    rw [List.find?_cons_of_pos _ (by simp [hv])]

theorem firstNonNull_eq_null {l : List Val} (h : firstNonNull l = Val.null) :
    ∀ v ∈ l, v = Val.null := by
  intro v hv
  by_contra hcon
  unfold firstNonNull at h
  rcases hfind : l.find? (fun v => v ≠ Val.null) with _ | w
  · have := List.find?_eq_none.mp hfind v hv
    simp at this
    exact hcon this
  · rw [hfind] at h
    subst h
    have := List.find?_some hfind
    simp at this

theorem firstNonNull_all_null {l : List Val} (h : ∀ v ∈ l, v = Val.null) :
    firstNonNull l = Val.null := by
  unfold firstNonNull
  rcases hfind : l.find? (fun v => v ≠ Val.null) with _ | w
  · rfl
  · have h1 := List.find?_some hfind
    have h2 := List.mem_of_find?_eq_some hfind
    rw [h w h2] at h1
    simp at h1

theorem coalesceCol_eq_nil {t : Table} {newCol : String} {cands : List String}
    (hf : cands.filter (fun c => t.hasCol c) = []) :
    coalesceCol t newCol cands =
      if t.hasCol newCol then t else t.setCol newCol (List.replicate t.nrows Val.null) := by
  unfold coalesceCol
  rw [hf]

theorem coalesceCol_eq_single {t : Table} {newCol : String} {cands : List String}
    {a : String} (hf : cands.filter (fun c => t.hasCol c) = [a]) :
    coalesceCol t newCol cands = t.setCol newCol (t.getCol a) := by
  unfold coalesceCol
  rw [hf]

theorem coalesceCol_eq_multi {t : Table} {newCol : String} {cands : List String}
    {a b : String} {rest : List String}
    (hf : cands.filter (fun c => t.hasCol c) = a :: b :: rest) :
    coalesceCol t newCol cands = t.setCol newCol (coalVals t cands) := by
  unfold coalesceCol
  rw [hf]

theorem coalesceCol_cases (t : Table) (newCol : String) (cands : List String) :
    coalesceCol t newCol cands = t ∨
    ∃ vs, coalesceCol t newCol cands = t.setCol newCol vs := by
  rcases hf : cands.filter (fun c => t.hasCol c) with _ | ⟨a, rest⟩
  · rw [coalesceCol_eq_nil hf]
    by_cases h : t.hasCol newCol
    · rw [if_pos h]
      exact Or.inl rfl
    · rw [if_neg h]
      exact Or.inr ⟨_, rfl⟩
  · rcases rest with _ | ⟨b, rest2⟩
    · rw [coalesceCol_eq_single hf]
      exact Or.inr ⟨_, rfl⟩
    · rw [coalesceCol_eq_multi hf]
      exact Or.inr ⟨_, rfl⟩

theorem coalesceCol_ne (t : Table) (newCol : String) (cands : List String) (m : String)
    (h : m ≠ newCol) :
    (coalesceCol t newCol cands).getCol m = t.getCol m ∧
    (coalesceCol t newCol cands).hasCol m = t.hasCol m := by
  rcases coalesceCol_cases t newCol cands with heq | ⟨vs, heq⟩
  · rw [heq]
    exact ⟨rfl, rfl⟩
  · rw [heq]
    exact ⟨getCol_setCol_ne t newCol m vs h, hasCol_setCol_ne t newCol m vs h⟩

theorem nrows_coalesceCol (t : Table) (newCol : String) (cands : List String) :
    (coalesceCol t newCol cands).nrows = t.nrows := by
  rcases coalesceCol_cases t newCol cands with heq | ⟨vs, heq⟩
  · rw [heq]
  · rw [heq]
    rfl

theorem hasCol_coalesceCol_mono (t : Table) (newCol : String) (cands : List String)
    (m : String) (hm : t.hasCol m = true) :
    (coalesceCol t newCol cands).hasCol m = true := by
  rcases coalesceCol_cases t newCol cands with heq | ⟨vs, heq⟩
  · rw [heq]; exact hm
  · rw [heq]; exact hasCol_setCol_mono t newCol m vs hm

theorem length_coalVals (t : Table) (cands : List String) :
    (coalVals t cands).length = t.nrows := by
  unfold coalVals
  rw [List.length_map, List.length_range]

theorem WF_coalesceCol {t : Table} (newCol : String) (cands : List String)
    (hwf : WF t) : WF (coalesceCol t newCol cands) := by
  rcases hf : cands.filter (fun c => t.hasCol c) with _ | ⟨a, rest⟩
  · rw [coalesceCol_eq_nil hf]
    by_cases h : t.hasCol newCol
    · rw [if_pos h]; exact hwf
    · rw [if_neg h]
      exact WF_setCol hwf (List.length_replicate _ _)
  · rcases rest with _ | ⟨b, rest2⟩
    · rw [coalesceCol_eq_single hf]
      have ha : t.hasCol a = true := by
        have : a ∈ cands.filter (fun c => t.hasCol c) := by rw [hf]; simp
        exact (List.mem_filter.mp this).2
      exact WF_setCol hwf (getCol_length hwf ha)
    · rw [coalesceCol_eq_multi hf]
      exact WF_setCol hwf (length_coalVals t cands)

theorem castColStr_ne (t : Table) (n m : String) (h : m ≠ n) :
    (castColStr t n).getCol m = t.getCol m ∧ (castColStr t n).hasCol m = t.hasCol m := by
  unfold castColStr
  by_cases hc : t.hasCol n
  · rw [if_pos hc]
    exact ⟨getCol_setCol_ne t n m _ h, hasCol_setCol_ne t n m _ h⟩
  · rw [if_neg hc]
    exact ⟨rfl, rfl⟩

theorem castColStr_self (t : Table) (n : String) (h : t.hasCol n = true) :
    (castColStr t n).getCol n = (t.getCol n).map castStr ∧
    (castColStr t n).hasCol n = true := by
  unfold castColStr
  rw [if_pos h]
  exact ⟨getCol_setCol_self t n _, hasCol_setCol_self t n _⟩

theorem castColStr_stable (t : Table) (n : String) (h1 : t.hasCol n = true)
    (h2 : ∀ v ∈ t.getCol n, castStr v = v) : castColStr t n = t := by
  unfold castColStr
  rw [if_pos h1, map_eq_self_of_forall h2, setCol_self t n _ h1 rfl]

theorem nrows_castColStr (t : Table) (n : String) : (castColStr t n).nrows = t.nrows := by
  unfold castColStr
  by_cases hc : t.hasCol n
  · rw [if_pos hc]; rfl
  · rw [if_neg hc]

theorem hasCol_castColStr_mono (t : Table) (n m : String) (hm : t.hasCol m = true) :
    (castColStr t n).hasCol m = true := by
  unfold castColStr
  by_cases hc : t.hasCol n
  · rw [if_pos hc]; exact hasCol_setCol_mono t n m _ hm
  · rw [if_neg hc]; exact hm

theorem WF_castColStr {t : Table} (n : String) (hwf : WF t) : WF (castColStr t n) := by
  unfold castColStr
  by_cases hc : t.hasCol n
  · rw [if_pos hc]
    apply WF_setCol hwf
    rw [List.length_map]
    exact getCol_length hwf hc
  · rw [if_neg hc]; exact hwf

theorem stageBmi_ne (t : Table) (m : String) (h : m ≠ "bmi") :
    (stageBmi t).getCol m = t.getCol m ∧ (stageBmi t).hasCol m = t.hasCol m := by
  unfold stageBmi
  by_cases hc : t.hasCol "weight" = true ∧ t.hasCol "height" = true
  · rw [if_pos hc]
    exact ⟨getCol_setCol_ne t _ m _ h, hasCol_setCol_ne t _ m _ h⟩
  · rw [if_neg hc]
    exact ⟨rfl, rfl⟩

theorem nrows_stageBmi (t : Table) : (stageBmi t).nrows = t.nrows := by
  unfold stageBmi
  by_cases hc : t.hasCol "weight" = true ∧ t.hasCol "height" = true
  · rw [if_pos hc]; rfl
  · rw [if_neg hc]

theorem hasCol_stageBmi_mono (t : Table) (m : String) (hm : t.hasCol m = true) :
    (stageBmi t).hasCol m = true := by
  unfold stageBmi
  by_cases hc : t.hasCol "weight" = true ∧ t.hasCol "height" = true
  · rw [if_pos hc]; exact hasCol_setCol_mono t _ m _ hm
  · rw [if_neg hc]; exact hm

theorem WF_stageBmi {t : Table} (hwf : WF t) : WF (stageBmi t) := by
  unfold stageBmi
  by_cases hc : t.hasCol "weight" = true ∧ t.hasCol "height" = true
  · rw [if_pos hc]
    apply WF_setCol hwf
    rw [List.length_zipWith, getCol_length hwf hc.1, getCol_length hwf hc.2,
      Nat.min_self]
  · rw [if_neg hc]; exact hwf

theorem stageDates_spec {t td : Table} (hd : stageDates t = some td) :
    td.getCol "event_date" = (t.getCol "event_date").map toDatetime ∧
    td.nrows = t.nrows ∧
    td.hasCol "event_date" = true ∧
    (∀ m, m ≠ "event_date" → m ≠ "event_timestamp" →
      td.getCol m = t.getCol m ∧ td.hasCol m = t.hasCol m) ∧
    td.hasCol "event_timestamp" = t.hasCol "event_timestamp" ∧
    (t.hasCol "event_timestamp" = true →
      td.getCol "event_timestamp" = (t.getCol "event_timestamp").map toDatetime) ∧
    (WF t → WF td) := by
  have he := stageDates_some hd
  unfold stageDates at hd
  rw [if_pos he] at hd
  have hd2 := Option.some_inj.mp hd
  set t1 := t.setCol "event_date" ((t.getCol "event_date").map toDatetime) with ht1
  have hts1 : t1.hasCol "event_timestamp" = t.hasCol "event_timestamp" :=
    hasCol_setCol_ne t _ _ _ (by decide)
  by_cases h2 : t1.hasCol "event_timestamp"
  · rw [if_pos h2] at hd2
    subst hd2
    refine ⟨?_, rfl, ?_, ?_, ?_, ?_, ?_⟩
    · rw [(getCol_setCol_ne t1 _ "event_date" _ (by decide))]
      exact getCol_setCol_self t _ _
    · exact hasCol_setCol_mono t1 _ _ _ (hasCol_setCol_self t _ _)
    · intro m hm1 hm2
      rw [getCol_setCol_ne t1 _ m _ hm2, hasCol_setCol_ne t1 _ m _ hm2,
        getCol_setCol_ne t _ m _ hm1, hasCol_setCol_ne t _ m _ hm1]
      exact ⟨rfl, rfl⟩
    · rw [hasCol_setCol_self]
      rw [← hts1]
      exact h2.symm
    · intro _
      rw [getCol_setCol_self, getCol_setCol_ne t _ _ _ (by decide)]
    · intro hwf
      have hwf1 : WF t1 := by
        apply WF_setCol hwf
        rw [List.length_map]
        exact getCol_length hwf he
      apply WF_setCol hwf1
      rw [List.length_map]
      exact getCol_length hwf1 h2
  · rw [if_neg h2] at hd2
    subst hd2
    have hts : t.hasCol "event_timestamp" = false := by
      rw [← hts1]
      revert h2
      cases t1.hasCol "event_timestamp" <;> simp
    refine ⟨getCol_setCol_self t _ _, rfl, hasCol_setCol_self t _ _, ?_, ?_, ?_, ?_⟩
    · intro m hm1 hm2
      rw [getCol_setCol_ne t _ m _ hm1, hasCol_setCol_ne t _ m _ hm1]
      exact ⟨rfl, rfl⟩
    · rw [hts1]
    · intro hcon
      rw [hcon] at hts
      simp at hts
    · intro hwf
      apply WF_setCol hwf
      rw [List.length_map]
      exact getCol_length hwf he

theorem stageDates_stable (t : Table) (h1 : t.hasCol "event_date" = true)
    (h2 : (t.getCol "event_date").map toDatetime = t.getCol "event_date")
    (h3 : t.hasCol "event_timestamp" = true →
      (t.getCol "event_timestamp").map toDatetime = t.getCol "event_timestamp") :
    stageDates t = some t := by
  unfold stageDates
  rw [if_pos h1]
  have ht1 : t.setCol "event_date" ((t.getCol "event_date").map toDatetime) = t := by
    rw [h2, setCol_self t _ _ h1 rfl]
  show some
      (let t1 := t.setCol "event_date" ((t.getCol "event_date").map toDatetime)
       if t1.hasCol "event_timestamp" then
         t1.setCol "event_timestamp" ((t1.getCol "event_timestamp").map toDatetime)
       else t1) = some t
  rw [ht1]
  by_cases hts : t.hasCol "event_timestamp"
  · rw [if_pos hts, h3 hts, setCol_self t _ _ hts rfl]
  · rw [if_neg hts]

theorem stageEvt_ne (t : Table) (m : String) (h : m ≠ "event_type") :
    (stageEvt t).getCol m = t.getCol m ∧ (stageEvt t).hasCol m = t.hasCol m := by
  unfold stageEvt
  by_cases hc : t.hasCol "event_type"
  · rw [if_pos hc]
    exact ⟨getCol_setCol_ne t _ m _ h, hasCol_setCol_ne t _ m _ h⟩
  · rw [if_neg hc]
    exact ⟨rfl, rfl⟩

theorem stageEvt_self (t : Table) (h : t.hasCol "event_type" = true) :
    (stageEvt t).getCol "event_type" = (t.getCol "event_type").map normEvtVal ∧
    (stageEvt t).hasCol "event_type" = true := by
  unfold stageEvt
  rw [if_pos h]
  exact ⟨getCol_setCol_self t _ _, hasCol_setCol_self t _ _⟩

theorem stageEvt_stable (t : Table) (h1 : t.hasCol "event_type" = true)
    (h2 : (t.getCol "event_type").map normEvtVal = t.getCol "event_type") :
    stageEvt t = t := by
  unfold stageEvt
  rw [if_pos h1, h2, setCol_self t _ _ h1 rfl]

theorem nrows_stageEvt (t : Table) : (stageEvt t).nrows = t.nrows := by
  unfold stageEvt
  by_cases hc : t.hasCol "event_type"
  · rw [if_pos hc]; rfl
  · rw [if_neg hc]

theorem WF_stageEvt {t : Table} (hwf : WF t) : WF (stageEvt t) := by
  unfold stageEvt
  by_cases hc : t.hasCol "event_type"
  · rw [if_pos hc]
    apply WF_setCol hwf
    rw [List.length_map]
    exact getCol_length hwf hc
  · rw [if_neg hc]; exact hwf

theorem zip_fst_snd {α β : Type} (l : List (α × β)) :
    (l.map Prod.fst).zip (l.map Prod.snd) = l := by
  induction l with
  | nil => rfl
  | cons a rest ih => simp [ih]

theorem nrows_stageRename (t : Table) : (stageRename t).nrows = t.nrows := rfl

theorem colNames_stageRename (t : Table) :
    (stageRename t).colNames = normalizeColumns t.colNames := by
  unfold stageRename Table.colNames
  apply List.map_fst_zip
  rw [normalizeColumns_length]
  simp

theorem WF_stageRename {t : Table} (hwf : WF t) : WF (stageRename t) := by
  intro c hc
  unfold stageRename at hc
  have h2 := (List.of_mem_zip hc).2
  rcases List.mem_map.mp h2 with ⟨d, hd, hsnd⟩
  show c.2.length = t.nrows
  rw [← hsnd]
  exact hwf d hd

/-- A column name already in normalized form: lower-case and trimmed. -/
def goodName (n : String) : Prop := pyLower n = n ∧ pyStrip n = n

instance goodName_decidable (n : String) : Decidable (goodName n) := by
  unfold goodName
  infer_instance

/-- Every column name of the table is normalized. -/
def goodCols (t : Table) : Prop := ∀ n ∈ t.colNames, goodName n

theorem normalizeColumns_id {names : List String} (hg : ∀ n ∈ names, goodName n)
    (hnd : names.Nodup) : normalizeColumns names = names := by
  have hmk : makeUnique names = names := by
    unfold makeUnique
    rw [uniquifyAux_eq_spec_nil]
    apply uniquifySpec_id
    · intro c hc
      exact ⟨(hg c hc).2, rfl⟩
    · exact hnd
  unfold normalizeColumns
  rw [hmk]
  unfold lowerUnique
  rw [uniquifyAux_eq_spec_nil]
  apply uniquifySpec_id
  · intro c hc
    refine ⟨?_, rfl⟩
    rw [(hg c hc).1, (hg c hc).2]
  · exact hnd

theorem stageRename_id (t : Table) (hg : goodCols t) (hnd : t.colNames.Nodup) :
    stageRename t = t := by
  unfold stageRename
  rw [normalizeColumns_id hg hnd]
  show (⟨t.nrows, (t.cols.map Prod.fst).zip (t.cols.map Prod.snd)⟩ : Table) = t
  rw [zip_fst_snd]

theorem goodCols_setCol {t : Table} {n : String} {vs : List Val} (hg : goodCols t)
    (hn : goodName n) : goodCols (t.setCol n vs) := by
  intro m hm
  rcases mem_colNames_setCol hm with h | rfl
  · exact hg m h
  · exact hn

theorem goodCols_stageRename (t : Table) : goodCols (stageRename t) := by
  intro n hn
  rw [colNames_stageRename] at hn
  exact normalizeColumns_good t.colNames n hn

theorem goodCols_coalesceCol {t : Table} (newCol : String) (cands : List String)
    (hg : goodCols t) (hn : goodName newCol) : goodCols (coalesceCol t newCol cands) := by
  rcases coalesceCol_cases t newCol cands with heq | ⟨vs, heq⟩
  · rw [heq]; exact hg
  · rw [heq]; exact goodCols_setCol hg hn

theorem goodCols_castColStr {t : Table} (n : String) (hg : goodCols t)
    (hn : goodName n) : goodCols (castColStr t n) := by
  unfold castColStr
  by_cases hc : t.hasCol n
  · rw [if_pos hc]; exact goodCols_setCol hg hn
  · rw [if_neg hc]; exact hg

theorem goodCols_stageBmi {t : Table} (hg : goodCols t) : goodCols (stageBmi t) := by
  unfold stageBmi
  by_cases hc : t.hasCol "weight" = true ∧ t.hasCol "height" = true
  · rw [if_pos hc]; exact goodCols_setCol hg (by decide)
  · rw [if_neg hc]; exact hg

theorem goodCols_ensure {t : Table} (c : String) (hg : goodCols t) (hn : goodName c) :
    goodCols (ensureStringCol t c) := by
  unfold ensureStringCol
  by_cases hc : t.hasCol c
  · rw [if_pos hc]
    exact goodCols_setCol hg hn
  · rw [if_neg hc]
    exact goodCols_setCol (goodCols_setCol hg hn) hn

theorem goodCols_foldl_ensure (l : List String) :
    ∀ t : Table, goodCols t → (∀ c ∈ l, goodName c) →
      goodCols (l.foldl ensureStringCol t) := by
  induction l with
  | nil => intro t hg _; exact hg
  | cons c rest ih =>
      intro t hg hn
      exact ih (ensureStringCol t c)
        (goodCols_ensure c hg (hn c (List.mem_cons_self c rest)))
        (fun d hd => hn d (List.mem_cons_of_mem c hd))

theorem goodCols_stageDates {t td : Table} (hd : stageDates t = some td)
    (hg : goodCols t) : goodCols td := by
  have he := stageDates_some hd
  unfold stageDates at hd
  rw [if_pos he] at hd
  have hd2 := Option.some_inj.mp hd
  by_cases h2 : (t.setCol "event_date"
      ((t.getCol "event_date").map toDatetime)).hasCol "event_timestamp"
  · rw [if_pos h2] at hd2
    subst hd2
    exact goodCols_setCol (goodCols_setCol hg (by decide)) (by decide)
  · rw [if_neg h2] at hd2
    subst hd2
    exact goodCols_setCol hg (by decide)

theorem goodCols_stageEvt {t : Table} (hg : goodCols t) : goodCols (stageEvt t) := by
  unfold stageEvt
  by_cases hc : t.hasCol "event_type"
  · rw [if_pos hc]; exact goodCols_setCol hg (by decide)
  · rw [if_neg hc]; exact hg

theorem coalesceCol_stable (t : Table) (newCol : String) (cr : List String) (hwf : WF t)
    (ht : t.hasCol newCol = true)
    (hstab : ∀ i, i < t.nrows → t.cell newCol i = Val.null →
      ∀ c ∈ cr, t.hasCol c = true → t.cell c i = Val.null) :
    coalesceCol t newCol (newCol :: cr) = t := by
  have hfc : (newCol :: cr).filter (fun c => t.hasCol c) =
      newCol :: cr.filter (fun c => t.hasCol c) := by
    rw [List.filter_cons_of_pos]
    exact ht
  have hcoal : coalVals t (newCol :: cr) = t.getCol newCol := by
    unfold coalVals
    rw [hfc]
    have hlen : (t.getCol newCol).length = t.nrows := getCol_length hwf ht
    conv_rhs => rw [← range_map_getD (t.getCol newCol)]
    rw [hlen]
    apply List.map_congr_left
    intro i hi
    rw [List.mem_range] at hi
    show firstNonNull
        ((newCol :: cr.filter (fun c => t.hasCol c)).map (fun c => t.cell c i)) =
      t.cell newCol i
    rw [List.map_cons, firstNonNull_cons]
    by_cases hnull : t.cell newCol i = Val.null
    · rw [if_pos hnull, hnull]
      apply firstNonNull_all_null
      intro v hv
      rcases List.mem_map.mp hv with ⟨c, hc, rfl⟩
      obtain ⟨hc1, hc2⟩ := List.mem_filter.mp hc
      exact hstab i hi hnull c hc1 (by simpa using hc2)
    · rw [if_neg hnull]
  rcases hf2 : cr.filter (fun c => t.hasCol c) with _ | ⟨a, rest⟩
  · have hone : (newCol :: cr).filter (fun c => t.hasCol c) = [newCol] := by
      rw [hfc, hf2]
    rw [coalesceCol_eq_single hone]
    exact setCol_self t newCol _ ht rfl
  · have hmulti : (newCol :: cr).filter (fun c => t.hasCol c) = newCol :: a :: rest := by
      rw [hfc, hf2]
    rw [coalesceCol_eq_multi hmulti, hcoal]
    exact setCol_self t newCol _ ht rfl

theorem getD_map_within {f : Val → Val} (l : List Val) (i : Nat) (h : i < l.length) :
    (l.map f).getD i Val.null = f (l.getD i Val.null) := by
  rw [List.getD_eq_getElem?_getD, List.getD_eq_getElem?_getD,
    List.getElem?_eq_getElem (by simpa using h), List.getElem?_eq_getElem h]
  simp

theorem coalVals_getD (t : Table) (cands : List String) (i : Nat) (h : i < t.nrows) :
    (coalVals t cands).getD i Val.null =
      firstNonNull ((cands.filter (fun c => t.hasCol c)).map (fun c => t.cell c i)) := by
  unfold coalVals
  rw [List.getD_eq_getElem?_getD,
    List.getElem?_eq_getElem (by simpa using h)]
  simp

theorem castStr_normEvt_castStr (u : Val) :
    castStr (normEvtVal (castStr u)) = normEvtVal (castStr u) := by
  cases u <;> rfl

theorem hasCol_cols_ne_nil {t : Table} {n : String} (h : t.hasCol n = true) :
    t.cols ≠ [] := by
  intro hnil
  unfold Table.hasCol at h
  rw [hnil] at h
  simp at h

/-- Stability of one coalesce target on an already-normalized table: the
target column of t1 holds the cast coalesced values computed over an earlier
table, and the non-target candidates agree between t1 and that table. -/
theorem coalesce_stable_generic (t1 base : Table) (X : String) (CR : List String)
    (hwf1 : WF t1) (hX : t1.hasCol X = true)
    (hval : t1.getCol X = (coalVals base (X :: CR)).map castStr)
    (hn : t1.nrows = base.nrows)
    (hcr : ∀ c ∈ CR, t1.hasCol c = base.hasCol c ∧ t1.getCol c = base.getCol c) :
    coalesceCol t1 X (X :: CR) = t1 := by
  apply coalesceCol_stable t1 X CR hwf1 hX
  intro i hi hnull c hc hhc
  have hlenc : (coalVals base (X :: CR)).length = base.nrows := length_coalVals base _
  have hib : i < base.nrows := by rw [← hn]; exact hi
  have hcell : t1.cell X i = castStr ((coalVals base (X :: CR)).getD i Val.null) := by
    unfold Table.cell
    rw [hval]
    apply getD_map_within
    rw [hlenc]
    exact hib
  rw [hcell] at hnull
  have hz : (coalVals base (X :: CR)).getD i Val.null = Val.null :=
    (castStr_null_iff _).mp hnull
  rw [coalVals_getD base _ i hib] at hz
  have hall := firstNonNull_eq_null hz
  have hcb : base.hasCol c = true := by rw [← (hcr c hc).1]; exact hhc
  have hcmem : c ∈ (X :: CR).filter (fun cc => base.hasCol cc) :=
    List.mem_filter.mpr ⟨List.mem_cons_of_mem X hc, by simpa using hcb⟩
  have hcellmem : base.cell c i ∈
      ((X :: CR).filter (fun cc => base.hasCol cc)).map (fun cc => base.cell cc i) :=
    List.mem_map_of_mem _ hcmem
  have hbasenull := hall _ hcellmem
  show t1.cell c i = Val.null
  unfold Table.cell
  rw [(hcr c hc).2]
  exact hbasenull

/-- C9 (amended): the normalization pipeline is idempotent on every
well-formed table whose first normalization succeeds with pairwise-distinct
column names: a second application of the pipeline returns the normalized
table unchanged.  (Unconditional idempotence fails: a raw column name that
collides with a generated duplicate-suffix name makes the first pass emit
duplicate names, which the second pass renames again — see the
counterexample.) -/
theorem normalizeTable_idempotent (t t1 : Table) (hwf : WF t)
    (h : normalizeTable t = some t1) (hnd : t1.colNames.Nodup) :
    normalizeTable t1 = some t1 := by
  by_cases hemp : t.isEmptyT = true
  · unfold normalizeTable at h ⊢
    rw [if_pos hemp] at h
    have ht1 := Option.some_inj.mp h
    subst ht1
    rw [if_pos hemp]
  · have hne : t.isEmptyT = false := by
      revert hemp; cases t.isEmptyT <;> simp
    unfold normalizeTable at h
    rw [if_neg (by simp [hne])] at h
    unfold stageCoalesce stageCastStateCity at h
    generalize hA : stageRename t = A at h
    generalize hB1 : coalesceCol A "state" ["state", "member_state", "state_code"] = B1 at h
    generalize hB2 : coalesceCol B1 "city" ["city", "member_city"] = B2 at h
    generalize hB3 : coalesceCol B2 "zipcode" ["zipcode", "zip", "member_zip"] = B3 at h
    generalize hC1 : castColStr B3 "state" = C1 at h
    generalize hC2 : castColStr C1 "city" = C2 at h
    generalize hD : stageBmi C2 = D at h
    generalize hE : stageEnsure D = E at h
    rcases hF : stageDates E with _ | F
    · rw [hF] at h
      simp at h
    · rw [hF] at h
      simp only [Option.map_some'] at h
      have ht1 : stageEvt F = t1 := Option.some_inj.mp h
      have hE2 : STRING_COLS.foldl ensureStringCol D = E := hE
      have Fspec := stageDates_spec hF
      -- well-formedness chain
      have hwfA : WF A := by rw [← hA]; exact WF_stageRename hwf
      have hwfB1 : WF B1 := by rw [← hB1]; exact WF_coalesceCol _ _ hwfA
      have hwfB2 : WF B2 := by rw [← hB2]; exact WF_coalesceCol _ _ hwfB1
      have hwfB3 : WF B3 := by rw [← hB3]; exact WF_coalesceCol _ _ hwfB2
      have hwfC1 : WF C1 := by rw [← hC1]; exact WF_castColStr _ hwfB3
      have hwfC2 : WF C2 := by rw [← hC2]; exact WF_castColStr _ hwfC1
      have hwfD : WF D := by rw [← hD]; exact WF_stageBmi hwfC2
      have hwfE : WF E := by rw [← hE]; exact WF_foldl_ensure STRING_COLS D hwfD
      have hwfF : WF F := Fspec.2.2.2.2.2.2 hwfE
      have hwf1 : WF t1 := by rw [← ht1]; exact WF_stageEvt hwfF
      -- row-count chain
      have hnB1 : B1.nrows = A.nrows := by rw [← hB1]; exact nrows_coalesceCol _ _ _
      have hnB2 : B2.nrows = B1.nrows := by rw [← hB2]; exact nrows_coalesceCol _ _ _
      have hnB3 : B3.nrows = B2.nrows := by rw [← hB3]; exact nrows_coalesceCol _ _ _
      have hnC1 : C1.nrows = B3.nrows := by rw [← hC1]; exact nrows_castColStr _ _
      have hnC2 : C2.nrows = C1.nrows := by rw [← hC2]; exact nrows_castColStr _ _
      have hnD : D.nrows = C2.nrows := by rw [← hD]; exact nrows_stageBmi _
      have hnE : E.nrows = D.nrows := by rw [← hE]; exact nrows_foldl_ensure _ _
      have hnF : F.nrows = E.nrows := Fspec.2.1
      have hn1F : t1.nrows = F.nrows := by rw [← ht1]; exact nrows_stageEvt _
      have hnA : A.nrows = t.nrows := by rw [← hA]; rfl
      have hn1A : t1.nrows = A.nrows := by
        rw [hn1F, hnF, hnE, hnD, hnC2, hnC1, hnB3, hnB2, hnB1]
      have hn1B1 : t1.nrows = B1.nrows := by rw [hn1A, ← hnB1]
      have hn1B2 : t1.nrows = B2.nrows := by rw [hn1B1, ← hnB2]
      -- goodCols
      have hg1 : goodCols t1 := by
        rw [← ht1]
        apply goodCols_stageEvt
        apply goodCols_stageDates hF
        rw [← hE]
        apply goodCols_foldl_ensure
        · rw [← hD]
          apply goodCols_stageBmi
          rw [← hC2]
          apply goodCols_castColStr _ _ (by decide)
          rw [← hC1]
          apply goodCols_castColStr _ _ (by decide)
          rw [← hB3]
          apply goodCols_coalesceCol _ _ _ (by decide)
          rw [← hB2]
          apply goodCols_coalesceCol _ _ _ (by decide)
          rw [← hB1]
          apply goodCols_coalesceCol _ _ _ (by decide)
          rw [← hA]
          exact goodCols_stageRename t
        · decide
      -- string columns exist on t1
      have hSC : ∀ c ∈ STRING_COLS, t1.hasCol c = true := by
        intro c hc
        rw [← ht1]
        apply stageEvt_hasCol_mono
        apply stageDates_hasCol_mono hF
        rw [← hE]
        exact hasCol_foldl_ensure_of_mem STRING_COLS D c hc
      -- values of the expected string columns on t1
      have hEcols : ∀ c ∈ STRING_COLS, E.getCol c =
          (if D.hasCol c = true then D.getCol c
           else List.replicate D.nrows Val.null).map castStr := by
        intro c hc
        rw [← hE]
        exact getCol_foldl_ensure_of_mem STRING_COLS D c hc (by decide)
      have ht1E : ∀ c ∈ STRING_COLS, c ≠ "event_type" → t1.getCol c = E.getCol c := by
        intro c hc hcet
        have hced : c ≠ "event_date" := by rintro rfl; revert hc; decide
        have hcts : c ≠ "event_timestamp" := by rintro rfl; revert hc; decide
        rw [← ht1, (stageEvt_ne F c hcet).1, (Fspec.2.2.2.1 c hced hcts).1]
      -- the untouched-column chain, back to the renamed table
      have hun : ∀ m : String, m ∉ STRING_COLS → m ≠ "event_date" →
          m ≠ "event_timestamp" → m ≠ "bmi" → m ≠ "state" → m ≠ "city" →
          m ≠ "zipcode" →
          t1.getCol m = A.getCol m ∧ t1.hasCol m = A.hasCol m := by
        intro m h1 h2 h3 h4 h5 h6 h7
        have het : m ≠ "event_type" := by rintro rfl; exact h1 (by decide)
        obtain ⟨e1, e2⟩ := stageEvt_ne F m het
        obtain ⟨d1, d2⟩ := Fspec.2.2.2.1 m h2 h3
        have hens := getCol_foldl_ensure_of_not_mem STRING_COLS D m h1
        obtain ⟨b1, b2⟩ := stageBmi_ne C2 m h4
        obtain ⟨cg1, ch1⟩ := castColStr_ne C1 "city" m h6
        obtain ⟨cg2, ch2⟩ := castColStr_ne B3 "state" m h5
        obtain ⟨z1, z2⟩ := coalesceCol_ne B2 "zipcode" ["zipcode", "zip", "member_zip"] m h7
        obtain ⟨y1, y2⟩ := coalesceCol_ne B1 "city" ["city", "member_city"] m h6
        obtain ⟨x1, x2⟩ := coalesceCol_ne A "state" ["state", "member_state", "state_code"] m h5
        rw [hD] at b1 b2
        rw [hC2] at cg1 ch1
        rw [hC1] at cg2 ch2
        rw [hB3] at z1 z2
        rw [hB2] at y1 y2
        rw [hB1] at x1 x2
        rw [hE2] at hens
        constructor
        · rw [← ht1, e1, d1, hens.1, b1, cg1, cg2, z1, y1, x1]
        · rw [← ht1, e2, d2, hens.2, b2, ch1, ch2, z2, y2, x2]
      -- state column facts
      have hstB1 := coalesceCol_getCol A "state" ["state", "member_state", "state_code"]
        hwfA (by decide)
      rw [hB1] at hstB1
      have hstB3v : B3.getCol "state" = B1.getCol "state" := by
        have hz := (coalesceCol_ne B2 "zipcode" ["zipcode", "zip", "member_zip"] "state"
          (by decide)).1
        have hy := (coalesceCol_ne B1 "city" ["city", "member_city"] "state" (by decide)).1
        rw [hB3] at hz
        rw [hB2] at hy
        rw [hz, hy]
      have hstB3h : B3.hasCol "state" = true := by
        have hz := (coalesceCol_ne B2 "zipcode" ["zipcode", "zip", "member_zip"] "state"
          (by decide)).2
        have hy := (coalesceCol_ne B1 "city" ["city", "member_city"] "state" (by decide)).2
        rw [hB3] at hz
        rw [hB2] at hy
        rw [hz, hy]
        exact hstB1.2
      have hstC1 := castColStr_self B3 "state" hstB3h
      rw [hC1] at hstC1
      have hstval : t1.getCol "state" =
          (coalVals A ["state", "member_state", "state_code"]).map castStr := by
        have he1 := (stageEvt_ne F "state" (by decide)).1
        have hd1 := (Fspec.2.2.2.1 "state" (by decide) (by decide)).1
        have hen := (getCol_foldl_ensure_of_not_mem STRING_COLS D "state" (by decide)).1
        have hb1 := (stageBmi_ne C2 "state" (by decide)).1
        have hc1 := (castColStr_ne C1 "city" "state" (by decide)).1
        rw [hD] at hb1
        rw [hC2] at hc1
        rw [hE2] at hen
        rw [← ht1, he1, hd1, hen, hb1, hc1, hstC1.1, hstB3v, hstB1.1]
      have hsth : t1.hasCol "state" = true := by
        have he2 := (stageEvt_ne F "state" (by decide)).2
        have hd2 := (Fspec.2.2.2.1 "state" (by decide) (by decide)).2
        have hen := (getCol_foldl_ensure_of_not_mem STRING_COLS D "state" (by decide)).2
        have hb2 := (stageBmi_ne C2 "state" (by decide)).2
        have hc2 := (castColStr_ne C1 "city" "state" (by decide)).2
        rw [hD] at hb2
        rw [hC2] at hc2
        rw [hE2] at hen
        rw [← ht1, he2, hd2, hen, hb2, hc2, hstC1.2]
      have hRstate : coalesceCol t1 "state" ["state", "member_state", "state_code"] = t1 := by
        apply coalesce_stable_generic t1 A "state" ["member_state", "state_code"]
          hwf1 hsth hstval hn1A
        intro c hc
        fin_cases hc
        · have hm := hun "member_state" (by decide) (by decide) (by decide) (by decide)
            (by decide) (by decide) (by decide)
          exact ⟨hm.2, hm.1⟩
        · have hm := hun "state_code" (by decide) (by decide) (by decide) (by decide)
            (by decide) (by decide) (by decide)
          exact ⟨hm.2, hm.1⟩
      -- city column facts
      have hctB2 := coalesceCol_getCol B1 "city" ["city", "member_city"] hwfB1 (by decide)
      rw [hB2] at hctB2
      have hctB3v : B3.getCol "city" = B2.getCol "city" := by
        have hz := (coalesceCol_ne B2 "zipcode" ["zipcode", "zip", "member_zip"] "city"
          (by decide)).1
        rw [hB3] at hz
        exact hz
      have hctB3h : B3.hasCol "city" = true := by
        have hz := (coalesceCol_ne B2 "zipcode" ["zipcode", "zip", "member_zip"] "city"
          (by decide)).2
        rw [hB3] at hz
        rw [hz]
        exact hctB2.2
      have hctC1v : C1.getCol "city" = B3.getCol "city" := by
        have hc := (castColStr_ne B3 "state" "city" (by decide)).1
        rw [hC1] at hc
        exact hc
      have hctC1h : C1.hasCol "city" = true := by
        have hc := (castColStr_ne B3 "state" "city" (by decide)).2
        rw [hC1] at hc
        rw [hc]
        exact hctB3h
      have hctC2 := castColStr_self C1 "city" hctC1h
      rw [hC2] at hctC2
      have hctval : t1.getCol "city" = (coalVals B1 ["city", "member_city"]).map castStr := by
        have he1 := (stageEvt_ne F "city" (by decide)).1
        have hd1 := (Fspec.2.2.2.1 "city" (by decide) (by decide)).1
        have hen := (getCol_foldl_ensure_of_not_mem STRING_COLS D "city" (by decide)).1
        have hb1 := (stageBmi_ne C2 "city" (by decide)).1
        rw [hD] at hb1
        rw [hE2] at hen
        rw [← ht1, he1, hd1, hen, hb1, hctC2.1, hctC1v, hctB3v, hctB2.1]
      have hcth : t1.hasCol "city" = true := by
        have he2 := (stageEvt_ne F "city" (by decide)).2
        have hd2 := (Fspec.2.2.2.1 "city" (by decide) (by decide)).2
        have hen := (getCol_foldl_ensure_of_not_mem STRING_COLS D "city" (by decide)).2
        have hb2 := (stageBmi_ne C2 "city" (by decide)).2
        rw [hD] at hb2
        rw [hE2] at hen
        rw [← ht1, he2, hd2, hen, hb2, hctC2.2]
      have hRcity : coalesceCol t1 "city" ["city", "member_city"] = t1 := by
        apply coalesce_stable_generic t1 B1 "city" ["member_city"] hwf1 hcth hctval hn1B1
        intro c hc
        fin_cases hc
        · have hm := hun "member_city" (by decide) (by decide) (by decide) (by decide)
            (by decide) (by decide) (by decide)
          have hx := coalesceCol_ne A "state" ["state", "member_state", "state_code"]
            "member_city" (by decide)
          rw [hB1] at hx
          exact ⟨hm.2.trans hx.2.symm, hm.1.trans hx.1.symm⟩
      -- zipcode column facts
      have hzpB3 := coalesceCol_getCol B2 "zipcode" ["zipcode", "zip", "member_zip"]
        hwfB2 (by decide)
      rw [hB3] at hzpB3
      have hzpD : D.getCol "zipcode" = B3.getCol "zipcode" ∧
          D.hasCol "zipcode" = true := by
        have hb := stageBmi_ne C2 "zipcode" (by decide)
        have hc1 := castColStr_ne C1 "city" "zipcode" (by decide)
        have hc2 := castColStr_ne B3 "state" "zipcode" (by decide)
        rw [hD] at hb
        rw [hC2] at hc1
        rw [hC1] at hc2
        refine ⟨?_, ?_⟩
        · rw [hb.1, hc1.1, hc2.1]
        · rw [hb.2, hc1.2, hc2.2]
          exact hzpB3.2
      have hzpval : t1.getCol "zipcode" =
          (coalVals B2 ["zipcode", "zip", "member_zip"]).map castStr := by
        rw [ht1E "zipcode" (by decide) (by decide), hEcols "zipcode" (by decide),
          if_pos hzpD.2, hzpD.1, hzpB3.1]
      have hRzip : coalesceCol t1 "zipcode" ["zipcode", "zip", "member_zip"] = t1 := by
        apply coalesce_stable_generic t1 B2 "zipcode" ["zip", "member_zip"] hwf1
          (hSC "zipcode" (by decide)) hzpval hn1B2
        intro c hc
        have hsib : ∀ m : String, m ∉ STRING_COLS → m ≠ "event_date" →
            m ≠ "event_timestamp" → m ≠ "bmi" → m ≠ "state" → m ≠ "city" →
            m ≠ "zipcode" →
            t1.hasCol m = B2.hasCol m ∧ t1.getCol m = B2.getCol m := by
          intro m h1 h2 h3 h4 h5 h6 h7
          have hm := hun m h1 h2 h3 h4 h5 h6 h7
          have hx := coalesceCol_ne A "state" ["state", "member_state", "state_code"] m h5
          have hy := coalesceCol_ne B1 "city" ["city", "member_city"] m h6
          rw [hB1] at hx
          rw [hB2] at hy
          exact ⟨hm.2.trans (hx.2.symm.trans hy.2.symm),
            hm.1.trans (hx.1.symm.trans hy.1.symm)⟩
        fin_cases hc
        · exact hsib "zip" (by decide) (by decide) (by decide) (by decide) (by decide)
            (by decide) (by decide)
        · exact hsib "member_zip" (by decide) (by decide) (by decide) (by decide)
            (by decide) (by decide) (by decide)
      have hRcoal : stageCoalesce t1 = t1 := by
        unfold stageCoalesce
        rw [hRstate, hRcity, hRzip]
      -- cast stage stability
      have hRcastState : castColStr t1 "state" = t1 := by
        apply castColStr_stable t1 "state" hsth
        rw [hstval]
        intro v hv
        rcases List.mem_map.mp hv with ⟨u, _, rfl⟩
        exact castStr_castStr u
      have hRcastCity : castColStr t1 "city" = t1 := by
        apply castColStr_stable t1 "city" hcth
        rw [hctval]
        intro v hv
        rcases List.mem_map.mp hv with ⟨u, _, rfl⟩
        exact castStr_castStr u
      have hRcast : stageCastStateCity t1 = t1 := by
        unfold stageCastStateCity
        rw [hRcastState, hRcastCity]
      -- bmi stage stability
      have hwfacts := hun "weight" (by decide) (by decide) (by decide) (by decide)
        (by decide) (by decide) (by decide)
      have hhfacts := hun "height" (by decide) (by decide) (by decide) (by decide)
        (by decide) (by decide) (by decide)
      have hwC2 : C2.getCol "weight" = A.getCol "weight" ∧
          C2.hasCol "weight" = A.hasCol "weight" := by
        have hc1 := castColStr_ne C1 "city" "weight" (by decide)
        have hc2 := castColStr_ne B3 "state" "weight" (by decide)
        have hz := coalesceCol_ne B2 "zipcode" ["zipcode", "zip", "member_zip"] "weight"
          (by decide)
        have hy := coalesceCol_ne B1 "city" ["city", "member_city"] "weight" (by decide)
        have hx := coalesceCol_ne A "state" ["state", "member_state", "state_code"]
          "weight" (by decide)
        rw [hC2] at hc1
        rw [hC1] at hc2
        rw [hB3] at hz
        rw [hB2] at hy
        rw [hB1] at hx
        exact ⟨hc1.1.trans (hc2.1.trans (hz.1.trans (hy.1.trans hx.1))),
          hc1.2.trans (hc2.2.trans (hz.2.trans (hy.2.trans hx.2)))⟩
      have hhC2 : C2.getCol "height" = A.getCol "height" ∧
          C2.hasCol "height" = A.hasCol "height" := by
        have hc1 := castColStr_ne C1 "city" "height" (by decide)
        have hc2 := castColStr_ne B3 "state" "height" (by decide)
        have hz := coalesceCol_ne B2 "zipcode" ["zipcode", "zip", "member_zip"] "height"
          (by decide)
        have hy := coalesceCol_ne B1 "city" ["city", "member_city"] "height" (by decide)
        have hx := coalesceCol_ne A "state" ["state", "member_state", "state_code"]
          "height" (by decide)
        rw [hC2] at hc1
        rw [hC1] at hc2
        rw [hB3] at hz
        rw [hB2] at hy
        rw [hB1] at hx
        exact ⟨hc1.1.trans (hc2.1.trans (hz.1.trans (hy.1.trans hx.1))),
          hc1.2.trans (hc2.2.trans (hz.2.trans (hy.2.trans hx.2)))⟩
      have hRbmi : stageBmi t1 = t1 := by
        by_cases hbo : t1.hasCol "weight" = true ∧ t1.hasCol "height" = true
        · have hbC2 : C2.hasCol "weight" = true ∧ C2.hasCol "height" = true := by
            constructor
            · rw [hwC2.2, ← hwfacts.2]; exact hbo.1
            · rw [hhC2.2, ← hhfacts.2]; exact hbo.2
          have hDdef : D = C2.setCol "bmi"
              (List.zipWith bmiVal (C2.getCol "weight") (C2.getCol "height")) := by
            rw [← hD]
            unfold stageBmi
            rw [if_pos hbC2]
          have hbmiv : t1.getCol "bmi" =
              List.zipWith bmiVal (C2.getCol "weight") (C2.getCol "height") := by
            have he1 := (stageEvt_ne F "bmi" (by decide)).1
            have hd1 := (Fspec.2.2.2.1 "bmi" (by decide) (by decide)).1
            have hen := (getCol_foldl_ensure_of_not_mem STRING_COLS D "bmi" (by decide)).1
            rw [hE2] at hen
            rw [← ht1, he1, hd1, hen, hDdef, getCol_setCol_self]
          have hbmih : t1.hasCol "bmi" = true := by
            have he2 := (stageEvt_ne F "bmi" (by decide)).2
            have hd2 := (Fspec.2.2.2.1 "bmi" (by decide) (by decide)).2
            have hen := (getCol_foldl_ensure_of_not_mem STRING_COLS D "bmi" (by decide)).2
            rw [hE2] at hen
            rw [← ht1, he2, hd2, hen, hDdef]
            exact hasCol_setCol_self C2 "bmi" _
          unfold stageBmi
          rw [if_pos hbo, hwfacts.1, hhfacts.1, ← hwC2.1, ← hhC2.1, ← hbmiv,
            setCol_self t1 "bmi" _ hbmih rfl]
        · unfold stageBmi
          rw [if_neg hbo]
      -- ensure stage stability
      have hR5 : stageEnsure t1 = t1 := by
        apply foldl_ensure_stable
        intro c hc
        refine ⟨hSC c hc, ?_⟩
        by_cases hcet : c = "event_type"
        · subst hcet
          have hFet : F.hasCol "event_type" = true := by
            apply stageDates_hasCol_mono hF
            rw [← hE]
            exact hasCol_foldl_ensure_of_mem STRING_COLS D _ (by decide)
          have hval : t1.getCol "event_type" = (F.getCol "event_type").map normEvtVal := by
            rw [← ht1]
            exact (stageEvt_self F hFet).1
          have hFval : F.getCol "event_type" = E.getCol "event_type" :=
            (Fspec.2.2.2.1 _ (by decide) (by decide)).1
          rw [hval, hFval, hEcols "event_type" (by decide)]
          intro v hv
          rcases List.mem_map.mp hv with ⟨u, hu, rfl⟩
          rcases List.mem_map.mp hu with ⟨w, _, rfl⟩
          exact castStr_normEvt_castStr w
        · rw [ht1E c hc hcet, hEcols c hc]
          intro v hv
          rcases List.mem_map.mp hv with ⟨u, _, rfl⟩
          exact castStr_castStr u
      -- date stage stability
      have hedh : t1.hasCol "event_date" = true := by
        rw [← ht1]
        exact stageEvt_hasCol_mono F _ Fspec.2.2.1
      have hedval : t1.getCol "event_date" = (E.getCol "event_date").map toDatetime := by
        rw [← ht1, (stageEvt_ne F _ (by decide)).1]
        exact Fspec.1
      have hR6 : stageDates t1 = some t1 := by
        apply stageDates_stable t1 hedh
        · rw [hedval]
          exact map_comp_idem toDatetime_idem _
        · intro hts
          have hts' : t1.hasCol "event_timestamp" = F.hasCol "event_timestamp" := by
            rw [← ht1]
            exact (stageEvt_ne F _ (by decide)).2
          have hEts : E.hasCol "event_timestamp" = true := by
            rw [← Fspec.2.2.2.2.1, ← hts']
            exact hts
          have htsval : t1.getCol "event_timestamp" =
              (E.getCol "event_timestamp").map toDatetime := by
            rw [← ht1, (stageEvt_ne F _ (by decide)).1]
            exact Fspec.2.2.2.2.2.1 hEts
          rw [htsval]
          exact map_comp_idem toDatetime_idem _
      -- event-type stage stability
      have hR7 : stageEvt t1 = t1 := by
        apply stageEvt_stable t1 (hSC _ (by decide))
        have hFet : F.hasCol "event_type" = true := by
          apply stageDates_hasCol_mono hF
          rw [← hE]
          exact hasCol_foldl_ensure_of_mem STRING_COLS D _ (by decide)
        have hval : t1.getCol "event_type" = (F.getCol "event_type").map normEvtVal := by
          rw [← ht1]
          exact (stageEvt_self F hFet).1
        rw [hval]
        exact map_comp_idem normEvtVal_idem _
      -- final assembly
      have hne1 : t1.isEmptyT = false := by
        unfold Table.isEmptyT
        unfold Table.isEmptyT at hne
        simp only [Bool.or_eq_false_iff] at hne
        have hnr : t1.nrows ≠ 0 := by
          rw [hn1A, hnA]
          simpa using hne.1
        have hcols : t1.cols ≠ [] := hasCol_cols_ne_nil (hSC "user_id" (by decide))
        simp [hnr, hcols]
      unfold normalizeTable
      rw [if_neg (by simp [hne1]), stageRename_id t1 hg1 hnd, hRcoal, hRcast, hRbmi,
        hR5, hR6]
      simp only [Option.map_some']
      rw [hR7]


/-- A one-row raw table with a parseable date. -/
def c9Base : Table :=
  ⟨1, [("event_date", [Val.str "2024-01-15"]), ("user_id", [Val.str "u1"])]⟩

/-- The normalized form of c9Base. -/
def c9Norm : Table :=
  ⟨1, [("event_date", [Val.date 20240115]), ("user_id", [Val.str "u1"]),
       ("state", [Val.null]), ("city", [Val.null]), ("zipcode", [Val.null]),
       ("event_type", [Val.null]), ("traffic_source", [Val.null]),
       ("utm_campaign", [Val.null]), ("device_type", [Val.null]),
       ("browser", [Val.null]), ("retention_status", [Val.null]),
       ("program_activity", [Val.null]), ("program_destination", [Val.null])]⟩

set_option maxHeartbeats 8000000 in
/-- C9 witness: the conditional idempotence theorem discharged on a concrete
normalized table. -/
theorem c9_witness : normalizeTable c9Norm = some c9Norm := by
  apply normalizeTable_idempotent c9Base c9Norm
  · intro c hc
    fin_cases hc <;> rfl
  · decide
  · decide

/-- A raw table whose column names collide with a generated suffix name. -/
def c9Clash : Table :=
  ⟨1, [("A", [Val.null]), ("a", [Val.null]), ("a_2", [Val.null]),
       ("event_date", [Val.null])]⟩

/-- First normalization of c9Clash: the renaming emits the duplicate name
a_2 twice. -/
def c9Mid : Table :=
  ⟨1, [("a", [Val.null]), ("a_2", [Val.null]), ("a_2", [Val.null]),
       ("event_date", [Val.null]), ("state", [Val.null]), ("city", [Val.null]),
       ("zipcode", [Val.null]), ("event_type", [Val.null]),
       ("traffic_source", [Val.null]), ("utm_campaign", [Val.null]),
       ("device_type", [Val.null]), ("browser", [Val.null]),
       ("retention_status", [Val.null]), ("program_activity", [Val.null]),
       ("user_id", [Val.null]), ("program_destination", [Val.null])]⟩

/-- Second normalization of c9Clash: the duplicated a_2 is renamed again. -/
def c9Mid2 : Table :=
  ⟨1, [("a", [Val.null]), ("a_2", [Val.null]), ("a_2_2", [Val.null]),
       ("event_date", [Val.null]), ("state", [Val.null]), ("city", [Val.null]),
       ("zipcode", [Val.null]), ("event_type", [Val.null]),
       ("traffic_source", [Val.null]), ("utm_campaign", [Val.null]),
       ("device_type", [Val.null]), ("browser", [Val.null]),
       ("retention_status", [Val.null]), ("program_activity", [Val.null]),
       ("user_id", [Val.null]), ("program_destination", [Val.null])]⟩

set_option maxHeartbeats 8000000 in
/-- C9 counterexample: normalizing the collision table twice does not equal
normalizing it once — the first pass renames the columns [A, a, a_2] to the
duplicated [a, a_2, a_2] and the second pass renames them again to
[a, a_2, a_2_2]. -/
theorem c9_counterexample :
    normalizeTable c9Clash = some c9Mid ∧
    normalizeTable c9Mid = some c9Mid2 ∧
    c9Mid2 ≠ c9Mid ∧
    (normalizeTable c9Clash).bind normalizeTable ≠ normalizeTable c9Clash := by
  refine ⟨by decide, by decide, by decide, ?_⟩
  rw [show normalizeTable c9Clash = some c9Mid from by decide]
  show normalizeTable c9Mid ≠ some c9Mid
  rw [show normalizeTable c9Mid = some c9Mid2 from by decide]
  decide
